import Mathlib

/-!
Verification of the Digital-Signal-Processing repository's sequence engine.

The C sources are shallowly embedded here:
* samples (C `double`) are modelled as exact rationals `ℚ`,
* a `seq_t` is a `List ℚ`,
* fallible operations return `Option`/an error code,
* the streaming state `seq_stream_t` is a Lean structure and
  `seq_stream_step` a pure state-passing function.

Definitions mirror `src/2/sequence.c` and `src/3/src/{seq.c,ops.c}`.
-/

/-- Operation tags, mirroring `seq_op_type` in `src/2/sequence.h`. -/
inductive SeqOp where
  | pad_front
  | pad_back
  | delay
  | advance
  | reverse
  | upsample
  | downsample
  | diff
  | cumsum
deriving DecidableEq

/-- Error codes, mirroring `seq_err_t` in `src/2/sequence.h`. -/
inductive SeqErr where
  | ok
  | arg
  | nomem
  | state
  | unsupported
deriving DecidableEq

/-- Batch front padding, from `seq_pad_front` in `src/2/sequence.c`:
`zeros` zeros are written first, then the source samples are copied. -/
def seq_pad_front (src : List ℚ) (zeros : Nat) : List ℚ :=
  List.replicate zeros 0 ++ src

/-- Batch delay, from `seq_delay` in `src/2/sequence.c`:
output has the source's length; `y[i] = fill` for `i < delay`,
otherwise `y[i] = x[i - delay]`. -/
def seq_delay (src : List ℚ) (delay : Nat) (fill : ℚ) : List ℚ :=
  (List.range src.length).map (fun i => if i < delay then fill else src.getD (i - delay) 0)

/-- Batch upsampling, from `seq_upsample` in `src/2/sequence.c`:
`none` models the `SEQ_ERR_ARG` return for a zero factor; otherwise the
output of length `len * factor` is all zeros except `y[i*factor] = x[i]`. -/
def seq_upsample (src : List ℚ) (factor : Nat) : Option (List ℚ) :=
  if factor = 0 then none
  else some ((List.range (src.length * factor)).map
    (fun n => if n % factor = 0 then src.getD (n / factor) 0 else 0))

/-- Batch downsampling, from `seq_downsample` in `src/2/sequence.c`:
`none` models the `SEQ_ERR_ARG` return for a zero factor; otherwise the
output has length `len / factor` (integer division) and `y[i] = x[i*factor]`. -/
def seq_downsample (src : List ℚ) (factor : Nat) : Option (List ℚ) :=
  if factor = 0 then none
  else some ((List.range (src.length / factor)).map (fun i => src.getD (i * factor) 0))

/-- Tail of the batch difference loop in `seq_diff` (`src/2/sequence.c`):
each output is the current sample minus the previous one. -/
def diffList (prev : ℚ) : List ℚ → List ℚ
  | [] => []
  | x :: rest => (x - prev) :: diffList x rest

/-- Batch difference, from `seq_diff` in `src/2/sequence.c`:
`y[0] = x[0]` and `y[i] = x[i] - x[i-1]` for `i ≥ 1`. -/
def seq_diff (src : List ℚ) : List ℚ :=
  match src with
  | [] => []
  | x :: rest => x :: diffList x rest

/-- Running accumulation loop of `seq_cumsum` (`src/2/sequence.c`). -/
def cumList (acc : ℚ) : List ℚ → List ℚ
  | [] => []
  | x :: rest => (acc + x) :: cumList (acc + x) rest

/-- Batch cumulative sum, from `seq_cumsum` in `src/2/sequence.c`. -/
def seq_cumsum (src : List ℚ) : List ℚ :=
  cumList 0 src

/-- Streaming state, mirroring `seq_stream_t` in `src/2/sequence.h`.
The C ring buffer pointer/size pair becomes a `List ℚ` plus `buf_size`. -/
structure SeqStream where
  active : Bool
  op : SeqOp
  param_main : Nat
  param_aux : Nat
  fill : ℚ
  buf : List ℚ
  buf_size : Nat
  buf_head : Nat
  counter : Nat
  remaining : Nat
  last : ℚ
  has_last : Bool
  acc : ℚ
deriving DecidableEq

/-- State produced by `seq_stream_reset` in `src/2/sequence.c` (all fields
cleared, inactive), before `seq_stream_init` installs `op` and `fill`. -/
def streamReset : SeqStream :=
  { active := false, op := .pad_front, param_main := 0, param_aux := 0, fill := 0,
    buf := [], buf_size := 0, buf_head := 0, counter := 0, remaining := 0,
    last := 0, has_last := false, acc := 0 }

/-- Stream construction, from `seq_stream_init` in `src/2/sequence.c`.
The state is reset, `op` and `fill` are installed, then the per-operator
switch runs; the pair returned is (error code, resulting state), matching
the C's in-place mutation of `*st`. Allocation failure is not modelled. -/
def seq_stream_init (op : SeqOp) (param_main : Nat) (param_aux : Nat) (fill : ℚ) :
    SeqErr × SeqStream :=
  let st := { streamReset with op := op, fill := fill }
  match op with
  | .pad_front =>
      (.ok, { st with param_main := param_main, remaining := param_main, active := true })
  | .delay =>
      if param_main = 0 then (.ok, { st with param_main := param_main, active := true })
      else (.ok, { st with param_main := param_main,
                           buf := List.replicate param_main fill,
                           buf_size := param_main, buf_head := 0, active := true })
  | .upsample =>
      if param_main = 0 then (.arg, st)
      else (.ok, { st with param_main := param_main, remaining := 0, active := true })
  | .downsample =>
      if param_main = 0 then (.arg, st)
      else (.ok, { st with param_main := param_main, counter := 0, active := true })
  | .diff =>
      (.ok, { st with has_last := false, active := true })
  | .cumsum =>
      (.ok, { st with acc := 0, active := true })
  | .pad_back => (.unsupported, st)
  | .advance => (.unsupported, st)
  | .reverse => (.unsupported, st)

/-- Result of one streaming step: error code, the state after the call
(the C mutates `*st` in place), whether `*has_output` was set, and the
value written through the `y` pointer if any. -/
structure StepResult where
  err : SeqErr
  st : SeqStream
  has_output : Bool
  y : Option ℚ
deriving DecidableEq

/-- One streaming step, from `seq_stream_step` in `src/2/sequence.c`.
`y_null` models a null `y` pointer and `ho_null` a null `has_output`
pointer (the C checks `!st || !has_output` first; a null `st` has no
state to model and is covered by the same `.arg` return). -/
def seq_stream_step (st : SeqStream) (has_input : Bool) (x : ℚ)
    (y_null : Bool) (ho_null : Bool) : StepResult :=
  if ho_null then ⟨.arg, st, false, none⟩
  else if !st.active then ⟨.state, st, false, none⟩
  else
    match st.op with
    | .pad_front =>
        if 0 < st.remaining then
          if has_input then ⟨.state, st, false, none⟩
          else ⟨.ok, { st with remaining := st.remaining - 1 }, true,
                if y_null then none else some 0⟩
        else if has_input && !y_null then ⟨.ok, st, true, some x⟩
        else ⟨.ok, st, false, none⟩
    | .delay =>
        if !has_input then ⟨.ok, st, false, none⟩
        else if y_null then ⟨.arg, st, false, none⟩
        else if st.param_main = 0 then ⟨.ok, st, true, some x⟩
        else
          let yv := st.buf.getD st.buf_head 0
          let h := st.buf_head + 1
          ⟨.ok, { st with buf := st.buf.set st.buf_head x,
                          buf_head := if st.buf_size ≤ h then 0 else h }, true, some yv⟩
    | .upsample =>
        if 0 < st.remaining then
          if has_input then ⟨.state, st, false, none⟩
          else ⟨.ok, { st with remaining := st.remaining - 1 }, true,
                if y_null then none else some 0⟩
        else if !has_input then ⟨.ok, st, false, none⟩
        else if y_null then ⟨.arg, st, false, none⟩
        else ⟨.ok, { st with remaining := if 1 < st.param_main then st.param_main - 1
                                           else st.remaining }, true, some x⟩
    | .downsample =>
        if !has_input then ⟨.ok, st, false, none⟩
        else if st.param_main = 0 then ⟨.state, st, false, none⟩
        else if st.counter % st.param_main = 0 then
          if y_null then ⟨.arg, st, false, none⟩
          else ⟨.ok, { st with counter := st.counter + 1 }, true, some x⟩
        else ⟨.ok, { st with counter := st.counter + 1 }, false, none⟩
    | .diff =>
        if !has_input then ⟨.ok, st, false, none⟩
        else if y_null then ⟨.arg, st, false, none⟩
        else if !st.has_last then
          ⟨.ok, { st with last := x, has_last := true }, true, some x⟩
        else ⟨.ok, { st with last := x }, true, some (x - st.last)⟩
    | .cumsum =>
        if !has_input then ⟨.ok, st, false, none⟩
        else if y_null then ⟨.arg, st, false, none⟩
        else ⟨.ok, { st with acc := st.acc + x }, true, some (st.acc + x)⟩
    | .pad_back => ⟨.unsupported, st, false, none⟩
    | .advance => ⟨.unsupported, st, false, none⟩
    | .reverse => ⟨.unsupported, st, false, none⟩

/-- Online-capability classifier, from `seq_online_capable` in
`src/2/sequence.c` (C int result modelled as `Bool`). -/
def seq_online_capable (op : SeqOp) (infinite_input : Bool) : Bool :=
  if infinite_input then
    match op with
    | .pad_front | .delay | .upsample | .downsample | .diff | .cumsum => true
    | .pad_back | .advance | .reverse => false
  else
    match op with
    | .pad_front | .pad_back | .delay | .advance | .reverse
    | .upsample | .downsample | .diff | .cumsum => true

/-- One flush loop of the stream driver (`cli_run_stream` in `src/2/cli.c`):
repeatedly call `seq_stream_step` with `has_input = 0` and collect outputs
until a step reports no output; an error aborts. `fuel` bounds the loop. -/
def streamFlushFuel : Nat → SeqStream → Except SeqErr (SeqStream × List ℚ)
  | 0, st => .ok (st, [])
  | fuel + 1, st =>
      let r := seq_stream_step st false 0 false false
      if r.err ≠ .ok then .error r.err
      else if r.has_output then
        match streamFlushFuel fuel r.st with
        | .error e => .error e
        | .ok (st2, ys) => .ok (st2, r.y.getD 0 :: ys)
      else .ok (r.st, [])

/-- Flush until no more output is produced.  A flush step emits output only
while `remaining > 0` and then decrements it, so `remaining + 1` steps always
reach the no-output exit; this instantiation is exactly the unbounded
`while (1)` flush loop of `cli_run_stream`. -/
def streamFlushAll (st : SeqStream) : Except SeqErr (SeqStream × List ℚ) :=
  streamFlushFuel (st.remaining + 1) st

/-- Feed samples one at a time exactly as the main loop of `cli_run_stream`
does: one real-input step per sample, each followed by a flush loop. -/
def streamFeedCli : SeqStream → List ℚ → Except SeqErr (SeqStream × List ℚ)
  | st, [] => .ok (st, [])
  | st, x :: rest =>
      let r := seq_stream_step st true x false false
      if r.err ≠ .ok then .error r.err
      else
        match streamFlushAll r.st with
        | .error e => .error e
        | .ok (st1, ys1) =>
            match streamFeedCli st1 rest with
            | .error e => .error e
            | .ok (st2, ys2) =>
                .ok (st2, (if r.has_output then [r.y.getD 0] else []) ++ ys1 ++ ys2)

/-- Whole streaming run as driven by `cli_run_stream` in `src/2/cli.c`:
initialize, flush the front-padding prefix, then feed each sample followed
by a flush loop, concatenating all emitted samples in order. -/
def streamRunCli (op : SeqOp) (param_main : Nat) (fill : ℚ) (xs : List ℚ) :
    Except SeqErr (List ℚ) :=
  let (e, st0) := seq_stream_init op param_main 0 fill
  if e ≠ .ok then .error e
  else
    match streamFlushAll st0 with
    | .error e => .error e
    | .ok (st1, ys0) =>
        match streamFeedCli st1 xs with
        | .error e => .error e
        | .ok (_, ys) => .ok (ys0 ++ ys)

/-- Feed samples one at a time with no interleaved flushing (the literal
protocol of the equivalence claim: full sequence first, flush afterwards). -/
def streamFeedOnly : SeqStream → List ℚ → Except SeqErr (SeqStream × List ℚ)
  | st, [] => .ok (st, [])
  | st, x :: rest =>
      let r := seq_stream_step st true x false false
      if r.err ≠ .ok then .error r.err
      else
        match streamFeedOnly r.st rest with
        | .error e => .error e
        | .ok (st2, ys2) =>
            .ok (st2, (if r.has_output then [r.y.getD 0] else []) ++ ys2)

/-- Whole streaming run under the literal protocol of the claim: initialize,
feed the full sequence one sample at a time, then flush until no more
output is produced. -/
def streamRunLiteral (op : SeqOp) (param_main : Nat) (fill : ℚ) (xs : List ℚ) :
    Except SeqErr (List ℚ) :=
  let (e, st0) := seq_stream_init op param_main 0 fill
  if e ≠ .ok then .error e
  else
    match streamFeedOnly st0 xs with
    | .error e => .error e
    | .ok (st1, ys1) =>
        match streamFlushAll st1 with
        | .error e => .error e
        | .ok (_, ys2) => .ok (ys1 ++ ys2)

/-- The six streaming-capable operators. -/
def streamingOps : List SeqOp :=
  [.pad_front, .delay, .upsample, .downsample, .diff, .cumsum]

/-- The three operators that are never capable under unbounded input. -/
def nonStreamingOps : List SeqOp :=
  [.pad_back, .advance, .reverse]

/-- Streaming downsample outputs collected by the driver loop: one output per
input whose running counter is divisible by the factor. -/
def downBlocks (f : Nat) (c : Nat) : List ℚ → List ℚ
  | [] => []
  | x :: rest => (if c % f = 0 then [x] else []) ++ downBlocks f (c + 1) rest

/-- Logical FIFO contents of the delay ring buffer: samples from the read
cursor to the end, then the wrapped-around front. -/
def ringQueue (buf : List ℚ) (head : Nat) : List ℚ :=
  buf.drop head ++ buf.take head

/-- Streaming-upsample output collected by the driver loop: each sample is
emitted immediately, followed by the `f - 1` flushed zeros. -/
def upsBlocks (f : Nat) : List ℚ → List ℚ
  | [] => []
  | x :: rest => x :: (List.replicate (f - 1) 0 ++ upsBlocks f rest)

/-- Batch dispatch used by the equivalence statements: the batch operator
matching each streaming-capable op tag (`none` for an invalid factor or a
non-streaming op). -/
def batchOf (op : SeqOp) (pm : Nat) (fill : ℚ) (xs : List ℚ) : Option (List ℚ) :=
  match op with
  | .pad_front => some (seq_pad_front xs pm)
  | .delay => some (seq_delay xs pm fill)
  | .upsample => seq_upsample xs pm
  | .downsample => seq_downsample xs pm
  | .diff => some (seq_diff xs)
  | .cumsum => some (seq_cumsum xs)
  | .pad_back => none
  | .advance => none
  | .reverse => none

/-- Accumulation of the inner convolution/correlation loops: each term is an
`Option` (a failed term models an out-of-range array read, which in C is
undefined behaviour); the whole sum fails if any term fails. -/
def optAccum : List (Option ℚ) → Option ℚ
  | [] => some 0
  | none :: _ => none
  | some v :: rest => (optAccum rest).map (fun s => v + s)

/-- The output-filling loop shared by the convolution/correlation
operators: each output index is computed in order and any failed (out of
range) term fails the whole computation. -/
def optMap (g : Nat → Option ℚ) : List Nat → Option (List ℚ)
  | [] => some []
  | n :: rest => (g n).bind (fun y => (optMap g rest).map (fun ys => y :: ys))

/-- One checked product term `a[k] * b[j]`: `none` models a read outside
either array's bounds. -/
def prodAt (a b : List ℚ) (k j : Nat) : Option ℚ :=
  match a.get? k, b.get? j with
  | some av, some bv => some (av * bv)
  | _, _ => none

/-- Linear convolution, from `seq_conv_linear` in `src/3/src/ops.c`: empty
output when either input is empty, else output length `la + lb - 1` with
`y[n]` accumulated over `k` from `k_min` to `k_max` as in the C loop; array
reads are bounds-checked so that `none` would flag undefined behaviour. -/
def seq_conv_linear (a b : List ℚ) : Option (List ℚ) :=
  if a.length = 0 ∨ b.length = 0 then some []
  else
    let la := a.length
    let lb := b.length
    optMap (fun n =>
      let kmin := if lb - 1 ≤ n then n - (lb - 1) else 0
      let kmax := if n < la - 1 then n else la - 1
      optAccum ((List.range' kmin (kmax + 1 - kmin)).map (fun k => prodAt a b k (n - k))))
      (List.range (la + lb - 1))

/-- Linear convolution as the specification states it: `y[n]` is the sum of
`a[k] * b[n-k]` over exactly those `k` for which both `k` is a valid index of
`a` and `n - k` is a valid index of `b` (an empty sum is `0`). -/
def convLinearSpec (a b : List ℚ) : List ℚ :=
  if a.length = 0 ∨ b.length = 0 then []
  else
    (List.range (a.length + b.length - 1)).map (fun n =>
      (((List.range a.length).filter (fun k => decide (k ≤ n ∧ n - k < b.length))).map
        (fun k => a.getD k 0 * b.getD (n - k) 0)).sum)

/-- Circular convolution, from `seq_conv_circular` in `src/3/src/ops.c`:
`none` models the `-1` argument-error return for empty or mismatched
lengths; otherwise `y[n]` sums `a[k] * b[(n + N - k) % N]` for `k < N`. -/
def seq_conv_circular (a b : List ℚ) : Option (List ℚ) :=
  if a.length = 0 ∨ b.length = 0 then none
  else if a.length ≠ b.length then none
  else
    let N := a.length
    optMap (fun n =>
      optAccum ((List.range N).map (fun k => prodAt a b k ((n + N - k) % N))))
      (List.range N)

/-- Circular convolution as the specification states it:
`y[n] = sum_{k=0}^{N-1} a[k] * b[(n-k) mod N]` with a mathematical
(non-negative) modulus. -/
def convCircSpec (a b : List ℚ) : List ℚ :=
  (List.range a.length).map (fun n : Nat =>
    ((List.range a.length).map (fun k : Nat =>
      a.getD k 0 * b.getD ((((n : ℤ) - (k : ℤ)) % (a.length : ℤ)).toNat) 0)).sum)

/-- Cross-correlation, from `seq_corr_cross` in `src/3/src/ops.c`: empty
output when either input is empty; otherwise for each output index `n` the
lag and the `k_start`/`k_end` window are computed exactly as the C does
(including the clamp of a negative `k_end` to zero), and the sum runs over
`k_start ≤ k ≤ k_end` when that interval is non-empty; array reads are
bounds-checked so that `none` flags an out-of-range read. -/
def seq_corr_cross (a b : List ℚ) : Option (List ℚ) :=
  if a.length = 0 ∨ b.length = 0 then some []
  else
    optMap (fun n =>
      let lag : ℤ := (n : ℤ) - ((b.length : ℤ) - 1)
      let kstart : Nat := if lag < 0 then (-lag).toNat else 0
      let kend : Nat :=
        if (a.length : ℤ) - 1 + lag > (b.length : ℤ) - 1 then
          (if (b.length : ℤ) - 1 - lag < 0 then 0 else ((b.length : ℤ) - 1 - lag).toNat)
        else a.length - 1
      if kstart ≤ kend then
        optAccum ((List.range' kstart (kend + 1 - kstart)).map
          (fun k => prodAt a b k ((k : ℤ) + lag).toNat))
      else some 0)
      (List.range (a.length + b.length - 1))

/-- Cross-correlation as the specification states it: for output index `n`,
`lag = n - (len(b) - 1)` and `y[n]` sums `a[k] * b[k + lag]` over exactly
those `k` for which `k` is a valid index of `a` and `k + lag` a valid index
of `b`. -/
def corrCrossSpec (a b : List ℚ) : List ℚ :=
  if a.length = 0 ∨ b.length = 0 then []
  else
    (List.range (a.length + b.length - 1)).map (fun n : Nat =>
      (((List.range a.length).filter (fun k : Nat =>
          decide (0 ≤ (k : ℤ) + ((n : ℤ) - ((b.length : ℤ) - 1)) ∧
            (k : ℤ) + ((n : ℤ) - ((b.length : ℤ) - 1)) < (b.length : ℤ)))).map
        (fun k : Nat =>
          a.getD k 0 * b.getD ((k : ℤ) + ((n : ℤ) - ((b.length : ℤ) - 1))).toNat 0)).sum)

/-- Sliding window, mirroring `seq_window_t` in `src/3/include/seq.h`; the
buffer pointer is `Option` so that a NULL buffer is representable. -/
structure seq_window_t where
  buf : Option (List ℚ)
  capacity : Nat
  start : Nat
  count : Nat
deriving DecidableEq

/-- Window read, from `seq_window_get` in `src/3/src/seq.c`: `0.0` for a
null window pointer, null buffer, zero capacity or an index at or past
`count`; otherwise the sample at physical index `(start + i) % capacity`. -/
def seq_window_get (w : Option seq_window_t) (i : Nat) : ℚ :=
  match w with
  | none => 0
  | some w =>
      match w.buf with
      | none => 0
      | some data =>
          if w.capacity = 0 then 0
          else if w.count ≤ i then 0
          else data.getD ((w.start + i) % w.capacity) 0

/-- Window push, from `seq_window_push` in `src/3/src/seq.c`: ignored for an
invalid window; appends at `(start + count) % capacity` while below
capacity, else overwrites the oldest slot and advances `start` (FIFO). -/
def seq_window_push (w : seq_window_t) (x : ℚ) : seq_window_t :=
  match w.buf with
  | none => w
  | some data =>
      if w.capacity = 0 then w
      else if w.count < w.capacity then
        { w with buf := some (data.set ((w.start + w.count) % w.capacity) x),
                 count := w.count + 1 }
      else
        { w with buf := some (data.set w.start x),
                 start := (w.start + 1) % w.capacity }

/-- Exact part of `seq_corr_window_norm` (`src/3/src/ops.c`): all argument
checks, the `L = min(count_a, count_b)` alignment with each window's
trailing `L` samples, the two accumulation loops and the zero-variance
check, returning `(num, sx2, sy2)` just before the square root. -/
def seq_corr_window_norm_core (wa wb : seq_window_t) : Option (ℚ × ℚ × ℚ) :=
  match wa.buf, wb.buf with
  | some _, some _ =>
      if wa.capacity = 0 ∨ wb.capacity = 0 then none
      else if wa.count = 0 ∨ wb.count = 0 then none
      else
        let L := min wa.count wb.count
        if L = 0 then none
        else
          let offa := if L < wa.count then wa.count - L else 0
          let offb := if L < wb.count then wb.count - L else 0
          let mx := ((List.range L).map (fun i => seq_window_get (some wa) (offa + i))).sum / (L : ℚ)
          let my := ((List.range L).map (fun i => seq_window_get (some wb) (offb + i))).sum / (L : ℚ)
          let num := ((List.range L).map (fun i =>
            (seq_window_get (some wa) (offa + i) - mx) *
              (seq_window_get (some wb) (offb + i) - my))).sum
          let sx2 := ((List.range L).map (fun i =>
            (seq_window_get (some wa) (offa + i) - mx) *
              (seq_window_get (some wa) (offa + i) - mx))).sum
          let sy2 := ((List.range L).map (fun i =>
            (seq_window_get (some wb) (offb + i) - my) *
              (seq_window_get (some wb) (offb + i) - my))).sum
          if sx2 ≤ 0 ∨ sy2 ≤ 0 then none
          else some (num, sx2, sy2)
  | _, _ => none

/-- Final step of `seq_corr_window_norm`: `denom = sqrt(sx2 * sy2)`, a
zero-denominator check, and the quotient `num / denom` (the square root
forces the result into `ℝ`). -/
noncomputable def seq_corr_window_norm (wa wb : seq_window_t) : Option ℝ :=
  match seq_corr_window_norm_core wa wb with
  | none => none
  | some (num, sx2, sy2) =>
      if Real.sqrt ((sx2 : ℝ) * (sy2 : ℝ)) = 0 then none
      else some ((num : ℝ) / Real.sqrt ((sx2 : ℝ) * (sy2 : ℝ)))

/-- The most recent `L` logical entries of a window (logical positions
`count - L` through `count - 1`), as the specification describes the
alignment. -/
def windowRecent (w : seq_window_t) (L : Nat) : List ℚ :=
  (List.range L).map (fun i => seq_window_get (some w) (w.count - L + i))

/-- Pearson ingredients exactly as the specification states them: over the
most recent `L` aligned entries of each window, with deviations from each
window's own mean over those entries, `(Σ dx·dy, Σ dx², Σ dy²)`. -/
def pearsonStats (wa wb : seq_window_t) (L : Nat) : ℚ × ℚ × ℚ :=
  let xa := windowRecent wa L
  let yb := windowRecent wb L
  let mx := xa.sum / (L : ℚ)
  let my := yb.sum / (L : ℚ)
  (((xa.zip yb).map (fun p => (p.1 - mx) * (p.2 - my))).sum,
   (xa.map (fun v => (v - mx) * (v - mx))).sum,
   (yb.map (fun v => (v - my) * (v - my))).sum)

theorem diffList_cumList (l : List ℚ) : ∀ p : ℚ, diffList p (cumList p l) = l := by
  induction l with
  | nil => intro p; rfl
  | cons x rest ih =>
      intro p
      simp only [cumList, diffList, add_sub_cancel_left, ih (p + x)]

theorem cumList_diffList (l : List ℚ) : ∀ p : ℚ, cumList p (diffList p l) = l := by
  induction l with
  | nil => intro p; rfl
  | cons x rest ih =>
      intro p
      simp only [diffList, cumList, add_sub_cancel, ih x]

/-- Exact-arithmetic identity of the batch loops: over exact rationals,
`cumsum` then `diff` (and `diff` then `cumsum`) is the identity. The C
program runs these loops on IEEE doubles, whose rounding breaks the exact
roundtrip (e.g. on `[0.1, 0.2]` the rounded running sum does not subtract
back to `0.2`); this theorem records only the ideal-arithmetic content of
the two loops. -/
theorem diff_cumsum_roundtrip_exact (x : List ℚ) :
    seq_diff (seq_cumsum x) = x ∧ seq_cumsum (seq_diff x) = x := by
  constructor
  · cases x with
    | nil => rfl
    | cons a rest =>
        simp only [seq_cumsum, cumList, zero_add, seq_diff, diffList_cumList]
  · cases x with
    | nil => rfl
    | cons a rest =>
        simp only [seq_diff, seq_cumsum, cumList, zero_add, cumList_diffList]

theorem getD_map_range (N : Nat) (f : Nat → ℚ) (i : Nat) (h : i < N) :
    ((List.range N).map f).getD i 0 = f i := by
  rw [List.getD_eq_getElem?_getD, List.getElem?_map, List.getElem?_range h]
  rfl

theorem map_getD_range (l : List ℚ) :
    (List.range l.length).map (fun i => l.getD i 0) = l := by
  induction l with
  | nil => rfl
  | cons x rest ih =>
      simp only [List.length_cons, List.range_succ_eq_map, List.map_cons, List.getD_cons_zero,
        List.map_map]
      refine congrArg (x :: ·) ?_
      calc (List.range rest.length).map ((fun i => (x :: rest).getD i 0) ∘ Nat.succ)
          = (List.range rest.length).map (fun i => rest.getD i 0) := by
            refine List.map_congr_left ?_
            intro i _
            simp [List.getD_cons_succ]
        _ = rest := ih

/-- C8: for any factor `f > 0`, downsampling the upsampled sequence by the same
factor succeeds and returns the original sequence. -/
theorem downsample_upsample_id (src : List ℚ) (f : Nat) (hf : 0 < f) :
    (seq_upsample src f).bind (fun u => seq_downsample u f) = some src := by
  have hf0 : f ≠ 0 := Nat.pos_iff_ne_zero.mp hf
  simp only [seq_upsample, hf0, if_false, Option.some_bind, seq_downsample, ite_false,
    Option.some.injEq]
  rw [List.length_map, List.length_range, Nat.mul_div_cancel _ hf]
  calc (List.range src.length).map
        (fun i => ((List.range (src.length * f)).map
          (fun n => if n % f = 0 then src.getD (n / f) 0 else 0)).getD (i * f) 0)
      = (List.range src.length).map (fun i => src.getD i 0) := by
        refine List.map_congr_left ?_
        intro i hi
        rw [List.mem_range] at hi
        rw [getD_map_range _ _ _ (by exact Nat.mul_lt_mul_of_lt_of_le hi (le_refl f) hf)]
        simp [Nat.mul_mod_left, Nat.mul_div_cancel _ hf]
    _ = src := map_getD_range src

/-- C8 witness at a concrete input. -/
theorem downsample_upsample_id_witness :
    0 < 3 ∧ (seq_upsample [(5 : ℚ), 7] 3).bind (fun u => seq_downsample u 3) = some [5, 7] :=
  ⟨by decide, downsample_upsample_id [(5 : ℚ), 7] 3 (by decide)⟩

/-- C3: the capability classifier returns true under the unbounded-input
assumption exactly for pad-front, delay, upsample, downsample, diff and
cumsum; under the finite-input assumption it returns true for all nine
operators; and `seq_stream_init` returns the unsupported-operation error —
leaving the state inactive — exactly for the non-capable operators
pad-back, advance and reverse. -/
theorem online_capable_classification (op : SeqOp) (pm pa : Nat) (fill : ℚ) :
    (seq_online_capable op true = true ↔ op ∈ streamingOps) ∧
    seq_online_capable op false = true ∧
    ((seq_stream_init op pm pa fill).1 = .unsupported ↔ op ∈ nonStreamingOps) ∧
    ((seq_stream_init op pm pa fill).1 ≠ .ok → (seq_stream_init op pm pa fill).2.active = false) := by
  cases op <;> by_cases h : pm = 0 <;>
    simp [seq_online_capable, seq_stream_init, streamingOps, nonStreamingOps, streamReset, h]

/-- C3 witness at concrete inputs (the final conjunct has a hypothesis). -/
theorem online_capable_classification_witness :
    (seq_online_capable .pad_back true = true ↔ SeqOp.pad_back ∈ streamingOps) ∧
    seq_online_capable .pad_back false = true ∧
    ((seq_stream_init .pad_back 2 0 (1 : ℚ)).1 = .unsupported ↔
      SeqOp.pad_back ∈ nonStreamingOps) ∧
    (seq_stream_init .pad_back 2 0 (1 : ℚ)).2.active = false :=
  ⟨(online_capable_classification .pad_back 2 0 1).1,
   (online_capable_classification .pad_back 2 0 1).2.1,
   (online_capable_classification .pad_back 2 0 1).2.2.1,
   (online_capable_classification .pad_back 2 0 1).2.2.2 (by decide)⟩

/-- C9: any erroring call to `seq_stream_step` (inactive state, real input
while pad-front or upsample zeros are pending, zero downsample factor, a
null `y` pointer when an output would be produced, a null `has_output`
pointer, or an unsupported operator) leaves every field of the streaming
state exactly as it was before the call. -/
theorem stream_step_error_preserves_state (st : SeqStream) (has_input : Bool) (x : ℚ)
    (y_null ho_null : Bool)
    (herr : (seq_stream_step st has_input x y_null ho_null).err ≠ .ok) :
    (seq_stream_step st has_input x y_null ho_null).st = st := by
  unfold seq_stream_step at herr ⊢
  cases ho_null <;> cases hact : st.active <;> cases hop : st.op <;>
    simp only [hop, hact, Bool.not_false, Bool.not_true, Bool.false_eq_true, Bool.true_eq_false,
      if_true, if_false, ite_true, ite_false, not_false_eq_true, not_true_eq_false] at herr ⊢ <;>
    split_ifs at herr ⊢ <;> simp_all

/-- C9 witness: stepping an inactive (freshly reset) state errors and leaves
the state untouched. -/
theorem stream_step_error_preserves_state_witness :
    (seq_stream_step streamReset true 1 false false).err ≠ .ok ∧
    (seq_stream_step streamReset true 1 false false).st = streamReset :=
  ⟨by decide, stream_step_error_preserves_state streamReset true 1 false false (by decide)⟩

theorem setRemaining_eta (st : SeqStream) (h : st.remaining = 0) :
    { st with remaining := 0 } = st := by
  cases st
  simp_all

theorem streamFlushFuel_step_out (fuel : Nat) (st st' : SeqStream) (y : ℚ)
    (h : seq_stream_step st false 0 false false = ⟨.ok, st', true, some y⟩) :
    streamFlushFuel (fuel + 1) st =
      match streamFlushFuel fuel st' with
      | .error e => .error e
      | .ok (st2, ys) => .ok (st2, y :: ys) := by
  simp [streamFlushFuel, h]

theorem streamFlushFuel_step_noout (fuel : Nat) (st st' : SeqStream)
    (h : seq_stream_step st false 0 false false = ⟨.ok, st', false, none⟩) :
    streamFlushFuel (fuel + 1) st = .ok (st', []) := by
  simp [streamFlushFuel, h]

theorem streamFlushFuel_drain (r : Nat) :
    ∀ st : SeqStream, st.active = true → (st.op = .pad_front ∨ st.op = .upsample) →
    st.remaining = r →
    streamFlushFuel (r + 1) st = .ok ({ st with remaining := 0 }, List.replicate r 0) := by
  induction r with
  | zero =>
      intro st hact hop hrem
      have hstep : seq_stream_step st false 0 false false = ⟨.ok, st, false, none⟩ := by
        rcases hop with h | h <;>
          simp [seq_stream_step, hact, h, hrem]
      rw [streamFlushFuel_step_noout 0 st st hstep, setRemaining_eta st hrem]
      rfl
  | succ n ih =>
      intro st hact hop hrem
      have hstep : seq_stream_step st false 0 false false =
          ⟨.ok, { st with remaining := n }, true, some 0⟩ := by
        rcases hop with h | h <;>
          simp [seq_stream_step, hact, h, hrem]
      have hrec := ih { st with remaining := n } hact (by rcases hop with h | h <;> simp [h]) rfl
      rw [streamFlushFuel_step_out (n + 1) st { st with remaining := n } 0 hstep, hrec]
      rfl

/-- The flush loop on a pad-front or upsample state emits the pending zeros
and clears `remaining`. -/
theorem streamFlushAll_drain (st : SeqStream) (hact : st.active = true)
    (hop : st.op = .pad_front ∨ st.op = .upsample) :
    streamFlushAll st = .ok ({ st with remaining := 0 }, List.replicate st.remaining 0) :=
  streamFlushFuel_drain st.remaining st hact hop rfl

/-- The flush loop is an output-free no-op on the four operators with no
deferred output. -/
theorem streamFlushAll_noop (st : SeqStream) (hact : st.active = true)
    (hop : st.op = .delay ∨ st.op = .downsample ∨ st.op = .diff ∨ st.op = .cumsum) :
    streamFlushAll st = .ok (st, []) := by
  rcases hop with h | h | h | h <;>
    simp [streamFlushAll, streamFlushFuel, seq_stream_step, hact, h]

theorem streamFeedCli_pad_front (xs : List ℚ) :
    ∀ st : SeqStream, st.active = true → st.op = .pad_front → st.remaining = 0 →
    streamFeedCli st xs = .ok (st, xs) := by
  induction xs with
  | nil => intro st _ _ _; rfl
  | cons x rest ih =>
      intro st hact hop hrem
      have hstep : seq_stream_step st true x false false = ⟨.ok, st, true, some x⟩ := by
        simp [seq_stream_step, hact, hop, hrem]
      have hflush : streamFlushAll st = .ok (st, []) := by
        have := streamFlushAll_drain st hact (Or.inl hop)
        rwa [hrem, setRemaining_eta st hrem] at this
      simp [streamFeedCli, hstep, hflush, ih st hact hop hrem]

theorem streamFeedCli_cumsum (xs : List ℚ) :
    ∀ st : SeqStream, st.active = true → st.op = .cumsum →
    ∃ st2, streamFeedCli st xs = .ok (st2, cumList st.acc xs) := by
  induction xs with
  | nil => intro st _ _; exact ⟨st, rfl⟩
  | cons x rest ih =>
      intro st hact hop
      have hstep : seq_stream_step st true x false false =
          ⟨.ok, { st with acc := st.acc + x }, true, some (st.acc + x)⟩ := by
        simp [seq_stream_step, hact, hop]
      have hflush : streamFlushAll { st with acc := st.acc + x } = .ok ({ st with acc := st.acc + x }, []) :=
        streamFlushAll_noop _ hact (by simp [hop])
      obtain ⟨st2, hrec⟩ := ih { st with acc := st.acc + x } hact hop
      exact ⟨st2, by simp [streamFeedCli, hstep, hflush, hrec, cumList]⟩

theorem streamFeedCli_diff_primed (xs : List ℚ) :
    ∀ st : SeqStream, st.active = true → st.op = .diff → st.has_last = true →
    ∃ st2, streamFeedCli st xs = .ok (st2, diffList st.last xs) := by
  induction xs with
  | nil => intro st _ _ _; exact ⟨st, rfl⟩
  | cons x rest ih =>
      intro st hact hop hlast
      have hstep : seq_stream_step st true x false false =
          ⟨.ok, { st with last := x }, true, some (x - st.last)⟩ := by
        simp [seq_stream_step, hact, hop, hlast]
      have hflush : streamFlushAll { st with last := x } = .ok ({ st with last := x }, []) :=
        streamFlushAll_noop _ hact (by simp [hop])
      obtain ⟨st2, hrec⟩ := ih { st with last := x } hact hop hlast
      exact ⟨st2, by simp [streamFeedCli, hstep, hflush, hrec, diffList]⟩

theorem streamFeedCli_diff (xs : List ℚ) (st : SeqStream) (hact : st.active = true)
    (hop : st.op = .diff) (hlast : st.has_last = false) :
    ∃ st2, streamFeedCli st xs = .ok (st2, seq_diff xs) := by
  cases xs with
  | nil => exact ⟨st, rfl⟩
  | cons x rest =>
      have hstep : seq_stream_step st true x false false =
          ⟨.ok, { st with last := x, has_last := true }, true, some x⟩ := by
        simp [seq_stream_step, hact, hop, hlast]
      have hflush : streamFlushAll { st with last := x, has_last := true } =
          .ok ({ st with last := x, has_last := true }, []) :=
        streamFlushAll_noop _ hact (by simp [hop])
      obtain ⟨st2, hrec⟩ := streamFeedCli_diff_primed rest
        { st with last := x, has_last := true } hact hop rfl
      exact ⟨st2, by simp [streamFeedCli, hstep, hflush, hrec, seq_diff]⟩

theorem streamFeedCli_downsample (xs : List ℚ) :
    ∀ st : SeqStream, st.active = true → st.op = .downsample → 0 < st.param_main →
    ∃ st2, streamFeedCli st xs = .ok (st2, downBlocks st.param_main st.counter xs) := by
  induction xs with
  | nil => intro st _ _ _; exact ⟨st, rfl⟩
  | cons x rest ih =>
      intro st hact hop hpm
      have hpm0 : st.param_main ≠ 0 := Nat.pos_iff_ne_zero.mp hpm
      obtain ⟨st2, hrec⟩ := ih { st with counter := st.counter + 1 } hact hop hpm
      have hflush : streamFlushAll { st with counter := st.counter + 1 } =
          .ok ({ st with counter := st.counter + 1 }, []) :=
        streamFlushAll_noop _ hact (by simp [hop])
      by_cases hc : st.counter % st.param_main = 0
      · have hstep : seq_stream_step st true x false false =
            ⟨.ok, { st with counter := st.counter + 1 }, true, some x⟩ := by
          simp [seq_stream_step, hact, hop, hpm0, hc]
        exact ⟨st2, by simp [streamFeedCli, hstep, hflush, hrec, downBlocks, hc]⟩
      · have hstep : seq_stream_step st true x false false =
            ⟨.ok, { st with counter := st.counter + 1 }, false, none⟩ := by
          simp [seq_stream_step, hact, hop, hpm0, hc]
        exact ⟨st2, by simp [streamFeedCli, hstep, hflush, hrec, downBlocks, hc]⟩

theorem ringQueue_cons (buf : List ℚ) (head : Nat) (hh : head < buf.length) :
    ringQueue buf head = buf.getD head 0 :: (buf.drop (head + 1) ++ buf.take head) := by
  unfold ringQueue
  rw [List.drop_eq_getElem_cons hh, List.cons_append, List.getD_eq_getElem?_getD,
    List.getElem?_eq_getElem hh]
  rfl

theorem ringQueue_set (buf : List ℚ) (head : Nat) (x : ℚ) (hh : head < buf.length) :
    ringQueue (buf.set head x) (if buf.length ≤ head + 1 then 0 else head + 1) =
      (buf.drop (head + 1) ++ buf.take head) ++ [x] := by
  have hset := List.set_eq_take_cons_drop x hh
  have hlt : head ≤ buf.length := Nat.le_of_lt hh
  have htl : (buf.take head).length = head := by
    rw [List.length_take]
    exact Nat.min_eq_left hlt
  by_cases hc : buf.length ≤ head + 1
  · have hEq : head + 1 = buf.length := Nat.le_antisymm hh hc
    have hdropnil : buf.drop (head + 1) = [] := by
      rw [hEq, List.drop_length]
    simp only [hc, if_true, ringQueue, List.drop_zero, List.take_zero, List.append_nil]
    rw [hset, hdropnil]
    simp
  · simp only [hc, if_false, ringQueue]
    have hdrop : (buf.set head x).drop (head + 1) = buf.drop (head + 1) := by
      rw [hset]
      calc (buf.take head ++ x :: buf.drop (head + 1)).drop (head + 1)
          = (buf.take head ++ x :: buf.drop (head + 1)).drop ((buf.take head).length + 1) := by
            rw [htl]
        _ = (x :: buf.drop (head + 1)).drop 1 := List.drop_append 1
        _ = buf.drop (head + 1) := rfl
    have htake : (buf.set head x).take (head + 1) = buf.take head ++ [x] := by
      rw [hset]
      calc (buf.take head ++ x :: buf.drop (head + 1)).take (head + 1)
          = (buf.take head ++ x :: buf.drop (head + 1)).take ((buf.take head).length + 1) := by
            rw [htl]
        _ = buf.take head ++ (x :: buf.drop (head + 1)).take 1 := List.take_append 1
        _ = buf.take head ++ [x] := rfl
    rw [hdrop, htake, List.append_assoc]

theorem streamFeedCli_delay0 (xs : List ℚ) :
    ∀ st : SeqStream, st.active = true → st.op = .delay → st.param_main = 0 →
    streamFeedCli st xs = .ok (st, xs) := by
  induction xs with
  | nil => intro st _ _ _; rfl
  | cons x rest ih =>
      intro st hact hop hpm
      have hstep : seq_stream_step st true x false false = ⟨.ok, st, true, some x⟩ := by
        simp [seq_stream_step, hact, hop, hpm]
      have hflush : streamFlushAll st = .ok (st, []) :=
        streamFlushAll_noop st hact (by simp [hop])
      simp [streamFeedCli, hstep, hflush, ih st hact hop hpm]

theorem streamFeedCli_delay (xs : List ℚ) :
    ∀ st : SeqStream, st.active = true → st.op = .delay → 0 < st.param_main →
    st.buf_size = st.param_main → st.buf.length = st.buf_size → st.buf_head < st.buf_size →
    ∃ st2, streamFeedCli st xs =
      .ok (st2, (ringQueue st.buf st.buf_head ++ xs).take xs.length) := by
  induction xs with
  | nil => intro st _ _ _ _ _ _; exact ⟨st, rfl⟩
  | cons x rest ih =>
      intro st hact hop hpm hbs hbl hbh
      have hpm0 : st.param_main ≠ 0 := Nat.pos_iff_ne_zero.mp hpm
      have hhlt : st.buf_head < st.buf.length := by rw [hbl]; exact hbh
      have hstep : seq_stream_step st true x false false =
          ⟨.ok, { st with buf := st.buf.set st.buf_head x,
                          buf_head := if st.buf_size ≤ st.buf_head + 1 then 0
                                      else st.buf_head + 1 },
            true, some (st.buf.getD st.buf_head 0)⟩ := by
        simp [seq_stream_step, hact, hop, hpm0]
      set st1 : SeqStream :=
        { st with buf := st.buf.set st.buf_head x,
                  buf_head := if st.buf_size ≤ st.buf_head + 1 then 0
                              else st.buf_head + 1 } with hst1
      have hflush : streamFlushAll st1 = .ok (st1, []) :=
        streamFlushAll_noop st1 hact (by simp [hst1, hop])
      have hbl1 : st1.buf.length = st1.buf_size := by
        simp [hst1, List.length_set, hbl]
      have hbh1 : st1.buf_head < st1.buf_size := by
        simp only [hst1]
        by_cases hc : st.buf_size ≤ st.buf_head + 1 <;> simp [hc]
        · rw [← hbs] at hpm; exact hpm
        · exact Nat.lt_of_not_le hc
      obtain ⟨st2, hrec⟩ := ih st1 hact (by simp [hst1, hop]) (by simpa [hst1] using hpm)
        (by simp [hst1, hbs]) hbl1 hbh1
      refine ⟨st2, ?_⟩
      have hq1 : ringQueue st1.buf st1.buf_head =
          (st.buf.drop (st.buf_head + 1) ++ st.buf.take st.buf_head) ++ [x] := by
        simp only [hst1]
        rw [← hbl]
        exact ringQueue_set st.buf st.buf_head x hhlt
      have hqcons := ringQueue_cons st.buf st.buf_head hhlt
      simp only [streamFeedCli, hstep, hflush, hrec]
      rw [hq1, hqcons]
      simp only [List.append_assoc, List.singleton_append, List.cons_append,
        List.length_cons, List.take_succ_cons, ne_eq]
      simp

theorem streamFeedCli_upsample (xs : List ℚ) :
    ∀ st : SeqStream, st.active = true → st.op = .upsample → 0 < st.param_main →
    st.remaining = 0 →
    ∃ st2, streamFeedCli st xs = .ok (st2, upsBlocks st.param_main xs) := by
  induction xs with
  | nil => intro st _ _ _ _; exact ⟨st, rfl⟩
  | cons x rest ih =>
      intro st hact hop hpm hrem
      have hstep : seq_stream_step st true x false false =
          ⟨.ok, { st with remaining := st.param_main - 1 }, true, some x⟩ := by
        by_cases hc : 1 < st.param_main
        · simp [seq_stream_step, hact, hop, hrem, hc]
        · have h1 : st.param_main = 1 := by omega
          simp [seq_stream_step, hact, hop, hrem, h1]
      set st1 : SeqStream := { st with remaining := st.param_main - 1 } with hst1
      have hflush : streamFlushAll st1 =
          .ok ({ st1 with remaining := 0 }, List.replicate (st.param_main - 1) 0) := by
        have := streamFlushAll_drain st1 hact (Or.inr (by simp [hst1, hop]))
        simpa [hst1] using this
      have hst1' : ({ st1 with remaining := 0 } : SeqStream) = { st with remaining := 0 } := rfl
      obtain ⟨st2, hrec⟩ := ih { st with remaining := 0 } hact hop hpm rfl
      refine ⟨st2, ?_⟩
      simp only [streamFeedCli, hstep, hflush, hst1', hrec, upsBlocks]
      simp

theorem take_replicate_append (xs : List ℚ) (d : Nat) (fill : ℚ) :
    (List.replicate d fill ++ xs).take xs.length = seq_delay xs d fill := by
  refine List.ext_getElem ?_ ?_
  · simp [seq_delay]
  · intro n h1 h2
    have hn : n < xs.length := by
      simpa [seq_delay] using h2
    have hlt : n < (List.replicate d fill ++ xs).length := by
      simp only [List.length_append, List.length_replicate]
      omega
    rw [List.getElem_take, List.getElem_append n hlt]
    simp only [seq_delay, List.getElem_map, List.getElem_range, List.length_replicate]
    by_cases hc : n < d
    · simp [hc]
    · have hge : d ≤ n := Nat.le_of_not_lt hc
      have hnd : n - d < xs.length := by omega
      simp only [hc, if_false, dif_neg hc]
      rw [List.getD_eq_getElem?_getD, List.getElem?_eq_getElem hnd]
      rfl

theorem map_range_head_block (f : Nat) (hf : 0 < f) (x : ℚ) (r : List ℚ) :
    (List.range f).map (fun m => if m % f = 0 then (x :: r).getD (m / f) 0 else 0) =
      x :: List.replicate (f - 1) 0 := by
  refine List.ext_getElem ?_ ?_
  · simp
    omega
  · intro n h1 h2
    have hn : n < f := by simpa using h1
    rw [List.getElem_map, List.getElem_range]
    cases n with
    | zero => simp [Nat.zero_mod, Nat.zero_div, hf]
    | succ m =>
        have hmod : (m + 1) % f = m + 1 := Nat.mod_eq_of_lt hn
        have : (m + 1) % f ≠ 0 := by omega
        simp only [this, if_false, List.getElem_cons_succ, List.getElem_replicate]

theorem upsBlocks_eq_batch (f : Nat) (hf : 0 < f) (xs : List ℚ) :
    upsBlocks f xs =
      (List.range (xs.length * f)).map
        (fun n => if n % f = 0 then xs.getD (n / f) 0 else 0) := by
  induction xs with
  | nil => simp [upsBlocks]
  | cons x rest ih =>
      have hlen : (x :: rest).length * f = f + rest.length * f := by
        simp [List.length_cons, Nat.succ_mul, Nat.add_comm]
      rw [upsBlocks, hlen, List.range_add, List.map_append, map_range_head_block f hf x rest]
      refine congrArg (fun t => x :: (List.replicate (f - 1) 0 ++ t)) ?_
      rw [List.map_map, ih]
      refine List.map_congr_left ?_
      intro m _
      simp only [Function.comp_apply]
      have hmod : (f + m) % f = m % f := Nat.add_mod_left f m
      have hdiv : (f + m) / f = m / f + 1 := by
        rw [Nat.add_comm]
        exact Nat.add_div_right m hf
      rw [hmod, hdiv]
      by_cases hc : m % f = 0 <;> simp [hc, List.getD_cons_succ]

theorem downBlocks_filter (f : Nat) (xs : List ℚ) :
    ∀ c : Nat, downBlocks f c xs =
      ((List.range xs.length).filter (fun t => (c + t) % f == 0)).map (fun t => xs.getD t 0) := by
  induction xs with
  | nil => intro c; rfl
  | cons x rest ih =>
      intro c
      rw [downBlocks, List.length_cons, List.range_succ_eq_map, List.filter_cons]
      have hfm : (List.map Nat.succ (List.range rest.length)).filter
            (fun t => (c + t) % f == 0) =
          List.map Nat.succ
            ((List.range rest.length).filter (fun t => (c + 1 + t) % f == 0)) := by
        rw [List.filter_map]
        refine congrArg (List.map Nat.succ) ?_
        refine List.filter_congr ?_
        intro t _
        simp only [Function.comp_apply]
        have he : c + Nat.succ t = c + 1 + t := by omega
        rw [he]
      have hmap : (List.map Nat.succ ((List.range rest.length).filter
            (fun t => (c + 1 + t) % f == 0))).map (fun t => (x :: rest).getD t 0) =
          ((List.range rest.length).filter (fun t => (c + 1 + t) % f == 0)).map
            (fun t => rest.getD t 0) := by
        rw [List.map_map]
        refine List.map_congr_left ?_
        intro t _
        simp [List.getD_cons_succ]
      rw [hfm]
      by_cases hc : c % f = 0
      · have hb : ((c + 0) % f == 0) = true := by simp [hc]
        rw [if_pos hb, List.map_cons, List.getD_cons_zero, hmap, ← ih (c + 1)]
        simp [hc]
      · have hb : ¬ (((c + 0) % f == 0) = true) := by simp [hc]
        rw [if_neg hb, hmap, ← ih (c + 1)]
        simp [hc]

theorem filter_range_self_mod (f : Nat) (hf : 0 < f) :
    (List.range f).filter (fun t => t % f == 0) = [0] := by
  obtain ⟨g, rfl⟩ : ∃ g, f = g + 1 := ⟨f - 1, by omega⟩
  rw [List.range_succ_eq_map, List.filter_cons]
  have hb : ((0 % (g + 1) == 0)) = true := by simp
  rw [if_pos hb]
  refine congrArg (0 :: ·) ?_
  rw [List.filter_map]
  have : (List.range g).filter ((fun t => t % (g + 1) == 0) ∘ Nat.succ) = [] := by
    rw [List.filter_eq_nil_iff]
    intro a ha
    rw [List.mem_range] at ha
    simp only [Function.comp_apply]
    have : Nat.succ a % (g + 1) = a + 1 := Nat.mod_eq_of_lt (by omega)
    simp [this]
  rw [this]
  rfl

theorem filter_range_mul (f : Nat) (hf : 0 < f) (m : Nat) :
    (List.range (m * f)).filter (fun t => t % f == 0) = (List.range m).map (fun i => i * f) := by
  induction m with
  | zero => simp
  | succ n ih =>
      rw [Nat.succ_mul, List.range_add, List.filter_append, ih, List.filter_map]
      have hfc : (List.range f).filter ((fun t => t % f == 0) ∘ (fun x => n * f + x)) =
          (List.range f).filter (fun t => t % f == 0) := by
        refine List.filter_congr ?_
        intro t _
        simp only [Function.comp_apply]
        have hmm : (n * f + t) % f = t % f := by
          rw [Nat.add_comm, Nat.add_mul_mod_self_right]
        rw [hmm]
      rw [hfc, filter_range_self_mod f hf, List.range_succ, List.map_append]
      rfl

theorem downBlocks_eq_batch (f : Nat) (hf : 0 < f) (xs : List ℚ) (hdvd : f ∣ xs.length) :
    downBlocks f 0 xs = (List.range (xs.length / f)).map (fun i => xs.getD (i * f) 0) := by
  rw [downBlocks_filter f xs 0]
  have hc0 : (List.range xs.length).filter (fun t => (0 + t) % f == 0) =
      (List.range xs.length).filter (fun t => t % f == 0) := by
    refine List.filter_congr ?_
    intro t _
    rw [Nat.zero_add]
  obtain ⟨m, hm⟩ := hdvd
  have hmf : xs.length = m * f := by rw [hm, Nat.mul_comm]
  rw [hc0, hmf, filter_range_mul f hf m, Nat.mul_div_cancel _ hf, List.map_map]
  rfl

theorem streamRunCli_pad_front (pm : Nat) (fill : ℚ) (xs : List ℚ) :
    streamRunCli .pad_front pm fill xs = .ok (seq_pad_front xs pm) := by
  have hinit : seq_stream_init .pad_front pm 0 fill =
      (.ok, ⟨true, .pad_front, pm, 0, fill, [], 0, 0, 0, pm, 0, false, 0⟩) := rfl
  set st0 : SeqStream := ⟨true, .pad_front, pm, 0, fill, [], 0, 0, 0, pm, 0, false, 0⟩
    with hst0
  set st1 : SeqStream := ⟨true, .pad_front, pm, 0, fill, [], 0, 0, 0, 0, 0, false, 0⟩
    with hst1
  have hflush : streamFlushAll st0 = .ok (st1, List.replicate pm 0) :=
    streamFlushAll_drain st0 rfl (Or.inl rfl)
  have hfeed : streamFeedCli st1 xs = .ok (st1, xs) :=
    streamFeedCli_pad_front xs st1 rfl rfl rfl
  simp only [streamRunCli, hinit, hflush, hfeed]
  rfl

theorem streamRunCli_delay (pm : Nat) (fill : ℚ) (xs : List ℚ) :
    streamRunCli .delay pm fill xs = .ok (seq_delay xs pm fill) := by
  by_cases hpm : pm = 0
  · subst hpm
    have hinit : seq_stream_init .delay 0 0 fill =
        (.ok, ⟨true, .delay, 0, 0, fill, [], 0, 0, 0, 0, 0, false, 0⟩) := rfl
    set st0 : SeqStream := ⟨true, .delay, 0, 0, fill, [], 0, 0, 0, 0, 0, false, 0⟩ with hst0
    have hflush : streamFlushAll st0 = .ok (st0, []) :=
      streamFlushAll_noop st0 rfl (Or.inl rfl)
    have hfeed : streamFeedCli st0 xs = .ok (st0, xs) :=
      streamFeedCli_delay0 xs st0 rfl rfl rfl
    simp only [streamRunCli, hinit, hflush, hfeed]
    have hd : seq_delay xs 0 fill = xs := by
      unfold seq_delay
      simp only [Nat.not_lt_zero, if_false, Nat.sub_zero]
      exact map_getD_range xs
    rw [hd]
    rfl
  · have hinit : seq_stream_init .delay pm 0 fill =
        (.ok, ⟨true, .delay, pm, 0, fill, List.replicate pm fill, pm, 0, 0, 0, 0, false, 0⟩) := by
      simp [seq_stream_init, hpm, streamReset]
    set st0 : SeqStream :=
      ⟨true, .delay, pm, 0, fill, List.replicate pm fill, pm, 0, 0, 0, 0, false, 0⟩ with hst0
    have hpm' : 0 < pm := Nat.pos_of_ne_zero hpm
    have hflush : streamFlushAll st0 = .ok (st0, []) :=
      streamFlushAll_noop st0 rfl (Or.inl rfl)
    obtain ⟨st2, hfeed⟩ := streamFeedCli_delay xs st0 rfl rfl hpm' rfl
      (by simp [hst0]) hpm'
    have hq : ringQueue st0.buf st0.buf_head = List.replicate pm fill := by
      simp [hst0, ringQueue]
    rw [hq] at hfeed
    simp only [streamRunCli, hinit, hflush, hfeed]
    rw [take_replicate_append xs pm fill]
    rfl

theorem streamRunCli_upsample (pm : Nat) (fill : ℚ) (xs : List ℚ) (hpm : 0 < pm) :
    streamRunCli .upsample pm fill xs =
      .ok ((List.range (xs.length * pm)).map
        (fun n => if n % pm = 0 then xs.getD (n / pm) 0 else 0)) := by
  have hpm0 : pm ≠ 0 := Nat.pos_iff_ne_zero.mp hpm
  have hinit : seq_stream_init .upsample pm 0 fill =
      (.ok, ⟨true, .upsample, pm, 0, fill, [], 0, 0, 0, 0, 0, false, 0⟩) := by
    simp [seq_stream_init, hpm0, streamReset]
  set st0 : SeqStream := ⟨true, .upsample, pm, 0, fill, [], 0, 0, 0, 0, 0, false, 0⟩ with hst0
  have hflush : streamFlushAll st0 = .ok (st0, []) := by
    have := streamFlushAll_drain st0 rfl (Or.inr rfl)
    simpa using this
  obtain ⟨st2, hfeed⟩ := streamFeedCli_upsample xs st0 rfl rfl hpm rfl
  rw [upsBlocks_eq_batch pm hpm xs] at hfeed
  simp only [streamRunCli, hinit, hflush, hfeed]
  rfl

theorem streamRunCli_downsample (pm : Nat) (fill : ℚ) (xs : List ℚ) (hpm : 0 < pm)
    (hdvd : pm ∣ xs.length) :
    streamRunCli .downsample pm fill xs =
      .ok ((List.range (xs.length / pm)).map (fun i => xs.getD (i * pm) 0)) := by
  have hpm0 : pm ≠ 0 := Nat.pos_iff_ne_zero.mp hpm
  have hinit : seq_stream_init .downsample pm 0 fill =
      (.ok, ⟨true, .downsample, pm, 0, fill, [], 0, 0, 0, 0, 0, false, 0⟩) := by
    simp [seq_stream_init, hpm0, streamReset]
  set st0 : SeqStream := ⟨true, .downsample, pm, 0, fill, [], 0, 0, 0, 0, 0, false, 0⟩ with hst0
  have hflush : streamFlushAll st0 = .ok (st0, []) :=
    streamFlushAll_noop st0 rfl (Or.inr (Or.inl rfl))
  obtain ⟨st2, hfeed⟩ := streamFeedCli_downsample xs st0 rfl rfl hpm
  rw [show st0.param_main = pm from rfl, show st0.counter = 0 from rfl,
    downBlocks_eq_batch pm hpm xs hdvd] at hfeed
  simp only [streamRunCli, hinit, hflush, hfeed]
  rfl

theorem streamRunCli_diff (fill : ℚ) (xs : List ℚ) :
    streamRunCli .diff 0 fill xs = .ok (seq_diff xs) := by
  have hinit : seq_stream_init .diff 0 0 fill =
      (.ok, ⟨true, .diff, 0, 0, fill, [], 0, 0, 0, 0, 0, false, 0⟩) := rfl
  set st0 : SeqStream := ⟨true, .diff, 0, 0, fill, [], 0, 0, 0, 0, 0, false, 0⟩ with hst0
  have hflush : streamFlushAll st0 = .ok (st0, []) :=
    streamFlushAll_noop st0 rfl (Or.inr (Or.inr (Or.inl rfl)))
  obtain ⟨st2, hfeed⟩ := streamFeedCli_diff xs st0 rfl rfl rfl
  simp only [streamRunCli, hinit, hflush, hfeed]
  rfl

theorem streamRunCli_cumsum (fill : ℚ) (xs : List ℚ) :
    streamRunCli .cumsum 0 fill xs = .ok (seq_cumsum xs) := by
  have hinit : seq_stream_init .cumsum 0 0 fill =
      (.ok, ⟨true, .cumsum, 0, 0, fill, [], 0, 0, 0, 0, 0, false, 0⟩) := rfl
  set st0 : SeqStream := ⟨true, .cumsum, 0, 0, fill, [], 0, 0, 0, 0, 0, false, 0⟩ with hst0
  have hflush : streamFlushAll st0 = .ok (st0, []) :=
    streamFlushAll_noop st0 rfl (Or.inr (Or.inr (Or.inr rfl)))
  obtain ⟨st2, hfeed⟩ := streamFeedCli_cumsum xs st0 rfl rfl
  simp only [streamRunCli, hinit, hflush, hfeed]
  rfl

/-- C1 (amended): for every finite input and every streaming-capable operator
with valid parameters, driving the stream as the CLI driver does — flushing
until no output is produced before the first sample and again after every
sample — completes with no step returning an error and yields exactly the
batch operator's output, provided that for downsample the factor divides the
input length (streaming downsample emits the samples at indices divisible by
the factor, one more than the batch's `len / factor` when the factor does not
divide the length). -/
theorem stream_cli_equiv_batch (op : SeqOp) (pm : Nat) (fill : ℚ) (xs : List ℚ)
    (hcap : op ∈ streamingOps)
    (hpm : op = .upsample ∨ op = .downsample → 0 < pm)
    (hdvd : op = .downsample → pm ∣ xs.length) :
    ∃ out, batchOf op pm fill xs = some out ∧ streamRunCli op pm fill xs = .ok out := by
  simp only [streamingOps, List.mem_cons, List.not_mem_nil, or_false] at hcap
  rcases hcap with rfl | rfl | rfl | rfl | rfl | rfl
  · exact ⟨seq_pad_front xs pm, rfl, streamRunCli_pad_front pm fill xs⟩
  · exact ⟨seq_delay xs pm fill, rfl, streamRunCli_delay pm fill xs⟩
  · have h := hpm (Or.inl rfl)
    refine ⟨_, ?_, streamRunCli_upsample pm fill xs h⟩
    simp [batchOf, seq_upsample, Nat.pos_iff_ne_zero.mp h]
  · have h := hpm (Or.inr rfl)
    refine ⟨_, ?_, streamRunCli_downsample pm fill xs h (hdvd rfl)⟩
    simp [batchOf, seq_downsample, Nat.pos_iff_ne_zero.mp h]
  · refine ⟨seq_diff xs, rfl, ?_⟩
    have h0 : streamRunCli .diff pm fill xs = streamRunCli .diff 0 fill xs := rfl
    rw [h0]
    exact streamRunCli_diff fill xs
  · refine ⟨seq_cumsum xs, rfl, ?_⟩
    have h0 : streamRunCli .cumsum pm fill xs = streamRunCli .cumsum 0 fill xs := rfl
    rw [h0]
    exact streamRunCli_cumsum fill xs

/-- C1 (amended) witness at a concrete input. -/
theorem stream_cli_equiv_batch_witness :
    SeqOp.downsample ∈ streamingOps ∧ (0 : Nat) < 2 ∧ 2 ∣ ([(1 : ℚ), 2, 3, 4]).length ∧
    ∃ out, batchOf .downsample 2 0 [(1 : ℚ), 2, 3, 4] = some out ∧
      streamRunCli .downsample 2 0 [(1 : ℚ), 2, 3, 4] = .ok out :=
  ⟨by decide, by decide, by decide,
    stream_cli_equiv_batch .downsample 2 0 [(1 : ℚ), 2, 3, 4] (by decide)
      (fun _ => by decide) (fun _ => by decide)⟩

/-- C1 counterexample to the claim as stated: under the literal protocol
(feed the full sequence first, flush only afterwards), pad-front with one
pending zero errors on the very first real sample, and streaming downsample
of `[1]` by factor 2 returns `[1]` while the batch operator returns `[]`. -/
theorem stream_feed_then_flush_counterexample :
    streamRunLiteral .pad_front 1 0 [1] = .error .state ∧
    streamRunLiteral .downsample 2 0 [1] = .ok [1] ∧
    batchOf .downsample 2 0 [(1 : ℚ)] = some [] ∧
    ([(1 : ℚ)] : List ℚ) ≠ [] := by
  refine ⟨rfl, rfl, rfl, by simp⟩

theorem filter_range_eq_range' (N s c : Nat) (p : Nat → Bool) (hsc : s + c ≤ N)
    (h : ∀ k, k < N → (p k = true ↔ s ≤ k ∧ k < s + c)) :
    (List.range N).filter p = List.range' s c := by
  have h1 : List.Pairwise (· < ·) ((List.range N).filter p) :=
    (List.pairwise_lt_range N).filter p
  have h2 : List.Pairwise (· < ·) (List.range' s c) := List.pairwise_lt_range' s c
  refine List.eq_of_perm_of_sorted ?_ h1 h2
  refine (List.perm_ext_iff_of_nodup ((List.nodup_range N).filter p)
    (List.nodup_range' s c)).mpr ?_
  intro a
  simp only [List.mem_filter, List.mem_range, List.mem_range'_1]
  constructor
  · rintro ⟨ha, hp⟩
    exact (h a ha).mp hp
  · intro ha
    have haN : a < N := by omega
    exact ⟨haN, (h a haN).mpr ha⟩

theorem optMap_some (l : List Nat) (g : Nat → Option ℚ) (f : Nat → ℚ)
    (h : ∀ n ∈ l, g n = some (f n)) : optMap g l = some (l.map f) := by
  induction l with
  | nil => rfl
  | cons a rest ih =>
      rw [optMap, h a (List.mem_cons_self a rest),
        ih (fun n hn => h n (List.mem_cons_of_mem a hn))]
      rfl

theorem optAccum_some (l : List Nat) (g : Nat → Option ℚ) (f : Nat → ℚ)
    (h : ∀ k ∈ l, g k = some (f k)) : optAccum (l.map g) = some ((l.map f).sum) := by
  induction l with
  | nil => rfl
  | cons a rest ih =>
      rw [List.map_cons, List.map_cons, h a (List.mem_cons_self a rest), optAccum,
        ih (fun k hk => h k (List.mem_cons_of_mem a hk)), List.sum_cons]
      rfl

theorem prodAt_some (a b : List ℚ) (k j : Nat) (hk : k < a.length) (hj : j < b.length) :
    prodAt a b k j = some (a.getD k 0 * b.getD j 0) := by
  unfold prodAt
  rw [List.get?_eq_getElem?, List.get?_eq_getElem?, List.getElem?_eq_getElem hk,
    List.getElem?_eq_getElem hj, List.getD_eq_getElem a 0 hk, List.getD_eq_getElem b 0 hj]

theorem conv_linear_inner (a b : List ℚ) (ha : a.length ≠ 0) (hb : b.length ≠ 0)
    (n : Nat) (hn : n < a.length + b.length - 1) :
    optAccum ((List.range' (if b.length - 1 ≤ n then n - (b.length - 1) else 0)
        ((if n < a.length - 1 then n else a.length - 1) + 1 -
          (if b.length - 1 ≤ n then n - (b.length - 1) else 0))).map
      (fun k => prodAt a b k (n - k))) =
    some ((((List.range a.length).filter
        (fun k => decide (k ≤ n ∧ n - k < b.length))).map
      (fun k => a.getD k 0 * b.getD (n - k) 0)).sum) := by
  set kmin : Nat := if b.length - 1 ≤ n then n - (b.length - 1) else 0 with hkmin
  set kmax : Nat := if n < a.length - 1 then n else a.length - 1 with hkmax
  have hbounds : kmin ≤ kmax ∧ kmax + 1 ≤ a.length ∧
      ∀ k, kmin ≤ k → k < kmin + (kmax + 1 - kmin) →
        k < a.length ∧ k ≤ n ∧ n - k < b.length := by
    rw [hkmin, hkmax]
    split_ifs <;> (refine ⟨by omega, by omega, ?_⟩; intro k hk1 hk2; omega)
  obtain ⟨hmk, hma, hink⟩ := hbounds
  have hiff : ∀ k, k < a.length →
      ((k ≤ n ∧ n - k < b.length) ↔ (kmin ≤ k ∧ k < kmin + (kmax + 1 - kmin))) := by
    intro k hk
    rw [hkmin, hkmax]
    rw [hkmin, hkmax] at hmk
    split_ifs at hmk ⊢ <;> omega
  have hfr : (List.range a.length).filter
        (fun k => decide (k ≤ n ∧ n - k < b.length)) =
      List.range' kmin (kmax + 1 - kmin) := by
    refine filter_range_eq_range' a.length kmin (kmax + 1 - kmin) _ (by omega) ?_
    intro k hk
    rw [decide_eq_true_eq]
    exact hiff k hk
  rw [hfr]
  refine optAccum_some _ _ _ ?_
  intro k hk
  rw [List.mem_range'_1] at hk
  obtain ⟨hka, _, hkb⟩ := hink k hk.1 hk.2
  exact prodAt_some a b k (n - k) hka hkb

/-- C4: linear convolution returns an empty output when either input is
empty, and otherwise succeeds with an output of length `la + lb - 1` in
which every `y[n]` is the sum of `a[k] * b[n-k]` over exactly the index
pairs in range (every array read in bounds, `none` never arises); in
particular `conv-linear([1,2],[3,4]) = [3,10,8]`. -/
theorem conv_linear_correct (a b : List ℚ) :
    seq_conv_linear a b = some (convLinearSpec a b) ∧
    (a.length = 0 ∨ b.length = 0 → convLinearSpec a b = []) ∧
    (a.length ≠ 0 → b.length ≠ 0 →
      (convLinearSpec a b).length = a.length + b.length - 1) ∧
    seq_conv_linear [(1 : ℚ), 2] [3, 4] = some [3, 10, 8] := by
  refine ⟨?_, ?_, ?_, by
    norm_num [seq_conv_linear, optMap, optAccum, prodAt, List.range_succ, List.range']⟩
  · by_cases hz : a.length = 0 ∨ b.length = 0
    · rw [seq_conv_linear, convLinearSpec, if_pos hz, if_pos hz]
    · push_neg at hz
      obtain ⟨ha, hb⟩ := hz
      rw [seq_conv_linear, convLinearSpec, if_neg (by tauto), if_neg (by tauto)]
      refine optMap_some _ _ _ ?_
      intro n hn
      rw [List.mem_range] at hn
      exact conv_linear_inner a b ha hb n hn
  · intro hz
    rw [convLinearSpec, if_pos hz]
  · intro ha hb
    rw [convLinearSpec, if_neg (by tauto), List.length_map, List.length_range]

/-- C4 witness: the conjuncts with hypotheses, discharged at concrete
inputs. -/
theorem conv_linear_correct_witness :
    convLinearSpec [(1 : ℚ), 2] [] = [] ∧
    (convLinearSpec [(1 : ℚ), 2] [5]).length = [(1 : ℚ), 2].length + [(5 : ℚ)].length - 1 :=
  ⟨(conv_linear_correct [(1 : ℚ), 2] []).2.1 (by decide),
   (conv_linear_correct [(1 : ℚ), 2] [5]).2.2.1 (by decide) (by decide)⟩

theorem circ_idx (N n k : Nat) (hN : 0 < N) (hk : k ≤ n + N) :
    (((n : ℤ) - (k : ℤ)) % (N : ℤ)).toNat = (n + N - k) % N := by
  have h1 : ((n + N - k : ℕ) : ℤ) = (n : ℤ) - k + N := by
    push_cast [Nat.cast_sub hk]
    ring
  have h2 : ((n : ℤ) - k) % (N : ℤ) = ((n + N - k : ℕ) : ℤ) % (N : ℤ) := by
    rw [h1]
    conv_rhs => rw [show (n : ℤ) - k + N = (n : ℤ) - k + N * 1 by ring]
    rw [Int.add_mul_emod_self_left]
  have h3 : ((n + N - k : ℕ) : ℤ) % ((N : ℕ) : ℤ) = (((n + N - k) % N : ℕ) : ℤ) :=
    (Int.ofNat_mod (n + N - k) N).symm
  rw [h2, h3, Int.toNat_natCast]

/-- C5: circular convolution fails with an argument error exactly when the
lengths differ or the common length is zero; otherwise it succeeds with an
output of length `N` where `y[n] = sum_{k<N} a[k] * b[(n-k) mod N]`. -/
theorem conv_circular_correct (a b : List ℚ) :
    (seq_conv_circular a b = none ↔ a.length ≠ b.length ∨ a.length = 0) ∧
    (a.length = b.length → 0 < a.length →
      seq_conv_circular a b = some (convCircSpec a b)) ∧
    (a.length = b.length → 0 < a.length → (convCircSpec a b).length = a.length) := by
  have hsucc : a.length = b.length → 0 < a.length →
      seq_conv_circular a b = some (convCircSpec a b) := by
    intro hlen hpos
    rw [seq_conv_circular, if_neg (by omega), if_neg (by omega), convCircSpec]
    refine optMap_some _ _ _ ?_
    intro n hn
    rw [List.mem_range] at hn
    have hterm : ∀ k ∈ List.range a.length,
        prodAt a b k ((n + a.length - k) % a.length) =
          some (a.getD k 0 * b.getD ((n + a.length - k) % a.length) 0) := by
      intro k hk
      rw [List.mem_range] at hk
      refine prodAt_some a b k _ hk ?_
      rw [← hlen]
      exact Nat.mod_lt _ hpos
    rw [optAccum_some _ _ _ hterm]
    refine congrArg some ?_
    refine congrArg List.sum (List.map_congr_left ?_)
    intro k hk
    rw [List.mem_range] at hk
    rw [circ_idx a.length n k hpos (by omega)]
  refine ⟨?_, hsucc, ?_⟩
  · constructor
    · intro hnone
      by_contra hcon
      push_neg at hcon
      obtain ⟨hlen, hpos⟩ := hcon
      rw [hsucc hlen (Nat.pos_of_ne_zero hpos)] at hnone
      exact Option.some_ne_none _ hnone
    · intro hcase
      rw [seq_conv_circular]
      by_cases hz : a.length = 0 ∨ b.length = 0
      · rw [if_pos hz]
      · rw [if_neg hz, if_pos (by omega)]
  · intro _ _
    rw [convCircSpec, List.length_map, List.length_range]

/-- C5 witness at a concrete input. -/
theorem conv_circular_correct_witness :
    seq_conv_circular [(1 : ℚ), 0, 0] [0, 1, 0] =
      some (convCircSpec [(1 : ℚ), 0, 0] [0, 1, 0]) ∧
    (convCircSpec [(1 : ℚ), 0, 0] [0, 1, 0]).length = [(1 : ℚ), 0, 0].length :=
  ⟨(conv_circular_correct [(1 : ℚ), 0, 0] [0, 1, 0]).2.1 (by decide) (by decide),
   (conv_circular_correct [(1 : ℚ), 0, 0] [0, 1, 0]).2.2 (by decide) (by decide)⟩

theorem corr_cross_inner (a b : List ℚ) (ha : a.length ≠ 0) (hb : b.length ≠ 0)
    (hle : a.length ≤ b.length) (n : Nat) (hn : n < a.length + b.length - 1) :
    (if (if (n : ℤ) - ((b.length : ℤ) - 1) < 0 then (-((n : ℤ) - ((b.length : ℤ) - 1))).toNat
          else 0) ≤
        (if (a.length : ℤ) - 1 + ((n : ℤ) - ((b.length : ℤ) - 1)) > (b.length : ℤ) - 1 then
          (if (b.length : ℤ) - 1 - ((n : ℤ) - ((b.length : ℤ) - 1)) < 0 then 0
            else ((b.length : ℤ) - 1 - ((n : ℤ) - ((b.length : ℤ) - 1))).toNat)
          else a.length - 1) then
      optAccum ((List.range'
          (if (n : ℤ) - ((b.length : ℤ) - 1) < 0 then
            (-((n : ℤ) - ((b.length : ℤ) - 1))).toNat else 0)
          ((if (a.length : ℤ) - 1 + ((n : ℤ) - ((b.length : ℤ) - 1)) > (b.length : ℤ) - 1 then
            (if (b.length : ℤ) - 1 - ((n : ℤ) - ((b.length : ℤ) - 1)) < 0 then 0
              else ((b.length : ℤ) - 1 - ((n : ℤ) - ((b.length : ℤ) - 1))).toNat)
            else a.length - 1) + 1 -
            (if (n : ℤ) - ((b.length : ℤ) - 1) < 0 then
              (-((n : ℤ) - ((b.length : ℤ) - 1))).toNat else 0))).map
        (fun k => prodAt a b k ((k : ℤ) + ((n : ℤ) - ((b.length : ℤ) - 1))).toNat))
    else some 0) =
    some ((((List.range a.length).filter (fun k : Nat =>
        decide (0 ≤ (k : ℤ) + ((n : ℤ) - ((b.length : ℤ) - 1)) ∧
          (k : ℤ) + ((n : ℤ) - ((b.length : ℤ) - 1)) < (b.length : ℤ)))).map
      (fun k : Nat =>
        a.getD k 0 * b.getD ((k : ℤ) + ((n : ℤ) - ((b.length : ℤ) - 1))).toNat 0)).sum) := by
  by_cases hrun : (if (n : ℤ) - ((b.length : ℤ) - 1) < 0 then
          (-((n : ℤ) - ((b.length : ℤ) - 1))).toNat else 0) ≤
      (if (a.length : ℤ) - 1 + ((n : ℤ) - ((b.length : ℤ) - 1)) > (b.length : ℤ) - 1 then
          (if (b.length : ℤ) - 1 - ((n : ℤ) - ((b.length : ℤ) - 1)) < 0 then 0
            else ((b.length : ℤ) - 1 - ((n : ℤ) - ((b.length : ℤ) - 1))).toNat)
          else a.length - 1)
  · rw [if_pos hrun]
    have hsc : (if (n : ℤ) - ((b.length : ℤ) - 1) < 0 then
          (-((n : ℤ) - ((b.length : ℤ) - 1))).toNat else 0) +
        ((if (a.length : ℤ) - 1 + ((n : ℤ) - ((b.length : ℤ) - 1)) > (b.length : ℤ) - 1 then
          (if (b.length : ℤ) - 1 - ((n : ℤ) - ((b.length : ℤ) - 1)) < 0 then 0
            else ((b.length : ℤ) - 1 - ((n : ℤ) - ((b.length : ℤ) - 1))).toNat)
          else a.length - 1) + 1 -
          (if (n : ℤ) - ((b.length : ℤ) - 1) < 0 then
            (-((n : ℤ) - ((b.length : ℤ) - 1))).toNat else 0)) ≤ a.length := by
      revert hrun
      split_ifs <;> (intro hrun; omega)
    have hfr : (List.range a.length).filter (fun k : Nat =>
          decide (0 ≤ (k : ℤ) + ((n : ℤ) - ((b.length : ℤ) - 1)) ∧
            (k : ℤ) + ((n : ℤ) - ((b.length : ℤ) - 1)) < (b.length : ℤ))) =
        List.range'
          (if (n : ℤ) - ((b.length : ℤ) - 1) < 0 then
            (-((n : ℤ) - ((b.length : ℤ) - 1))).toNat else 0)
          ((if (a.length : ℤ) - 1 + ((n : ℤ) - ((b.length : ℤ) - 1)) > (b.length : ℤ) - 1 then
            (if (b.length : ℤ) - 1 - ((n : ℤ) - ((b.length : ℤ) - 1)) < 0 then 0
              else ((b.length : ℤ) - 1 - ((n : ℤ) - ((b.length : ℤ) - 1))).toNat)
            else a.length - 1) + 1 -
            (if (n : ℤ) - ((b.length : ℤ) - 1) < 0 then
              (-((n : ℤ) - ((b.length : ℤ) - 1))).toNat else 0)) := by
      refine filter_range_eq_range' a.length _ _ _ hsc ?_
      intro k hk
      rw [decide_eq_true_eq]
      revert hrun
      split_ifs <;> (intro hrun; omega)
    rw [hfr]
    refine optAccum_some _ _ _ ?_
    intro k hk
    rw [List.mem_range'_1] at hk
    have hkk : k < a.length ∧ 0 ≤ (k : ℤ) + ((n : ℤ) - ((b.length : ℤ) - 1)) ∧
        (k : ℤ) + ((n : ℤ) - ((b.length : ℤ) - 1)) < (b.length : ℤ) := by
      revert hrun hk
      split_ifs <;> (intro hk hrun; omega)
    exact prodAt_some a b k ((k : ℤ) + ((n : ℤ) - ((b.length : ℤ) - 1))).toNat hkk.1 (by omega)
  · rw [if_neg hrun]
    have hempty : (List.range a.length).filter (fun k : Nat =>
        decide (0 ≤ (k : ℤ) + ((n : ℤ) - ((b.length : ℤ) - 1)) ∧
          (k : ℤ) + ((n : ℤ) - ((b.length : ℤ) - 1)) < (b.length : ℤ))) = [] := by
      rw [List.filter_eq_nil_iff]
      intro k hk
      rw [List.mem_range] at hk
      rw [decide_eq_true_eq]
      revert hrun
      split_ifs <;> (intro hrun; omega)
    rw [hempty]
    rfl

theorem optMap_none (l : List Nat) (g : Nat → Option ℚ) (n : Nat)
    (hn : n ∈ l) (hg : g n = none) : optMap g l = none := by
  induction l with
  | nil => cases hn
  | cons a rest ih =>
      rw [optMap]
      rcases List.mem_cons.mp hn with rfl | hmem
      · rw [hg]
        rfl
      · cases hga : g a
        · rfl
        · rw [ih hmem]
          rfl

theorem corr_cross_oob_term (a b : List ℚ) (ha : a.length ≠ 0) (hb : b.length ≠ 0)
    (hlt : b.length < a.length) :
    (if (if ((2 * b.length - 1 : ℕ) : ℤ) - ((b.length : ℤ) - 1) < 0 then
          (-(((2 * b.length - 1 : ℕ) : ℤ) - ((b.length : ℤ) - 1))).toNat else 0) ≤
        (if (a.length : ℤ) - 1 + (((2 * b.length - 1 : ℕ) : ℤ) - ((b.length : ℤ) - 1)) >
            (b.length : ℤ) - 1 then
          (if (b.length : ℤ) - 1 - (((2 * b.length - 1 : ℕ) : ℤ) - ((b.length : ℤ) - 1)) < 0
            then 0
            else ((b.length : ℤ) - 1 -
              (((2 * b.length - 1 : ℕ) : ℤ) - ((b.length : ℤ) - 1))).toNat)
          else a.length - 1) then
      optAccum ((List.range'
          (if ((2 * b.length - 1 : ℕ) : ℤ) - ((b.length : ℤ) - 1) < 0 then
            (-(((2 * b.length - 1 : ℕ) : ℤ) - ((b.length : ℤ) - 1))).toNat else 0)
          ((if (a.length : ℤ) - 1 + (((2 * b.length - 1 : ℕ) : ℤ) - ((b.length : ℤ) - 1)) >
              (b.length : ℤ) - 1 then
            (if (b.length : ℤ) - 1 - (((2 * b.length - 1 : ℕ) : ℤ) - ((b.length : ℤ) - 1)) < 0
              then 0
              else ((b.length : ℤ) - 1 -
                (((2 * b.length - 1 : ℕ) : ℤ) - ((b.length : ℤ) - 1))).toNat)
            else a.length - 1) + 1 -
            (if ((2 * b.length - 1 : ℕ) : ℤ) - ((b.length : ℤ) - 1) < 0 then
              (-(((2 * b.length - 1 : ℕ) : ℤ) - ((b.length : ℤ) - 1))).toNat else 0))).map
        (fun k => prodAt a b k
          ((k : ℤ) + (((2 * b.length - 1 : ℕ) : ℤ) - ((b.length : ℤ) - 1))).toNat))
    else some 0) = none := by
  have hc1 : ¬(((2 * b.length - 1 : ℕ) : ℤ) - ((b.length : ℤ) - 1) < 0) := by omega
  have hc2 : (a.length : ℤ) - 1 + (((2 * b.length - 1 : ℕ) : ℤ) - ((b.length : ℤ) - 1)) >
      (b.length : ℤ) - 1 := by omega
  have hc3 : (b.length : ℤ) - 1 - (((2 * b.length - 1 : ℕ) : ℤ) - ((b.length : ℤ) - 1)) < 0 := by
    omega
  simp only [if_neg hc1, if_pos hc2, if_pos hc3]
  rw [if_pos (Nat.le_refl 0)]
  have hr : List.range' 0 (0 + 1 - 0) = [0] := rfl
  rw [hr, List.map_cons, List.map_nil]
  have hidx : (((0 : ℕ) : ℤ) +
      (((2 * b.length - 1 : ℕ) : ℤ) - ((b.length : ℤ) - 1))).toNat = b.length := by omega
  rw [hidx]
  have hpa : prodAt a b 0 b.length = none := by
    unfold prodAt
    have h0 : a.get? 0 = some (a.getD 0 0) := by
      rw [List.get?_eq_getElem?, List.getElem?_eq_getElem (by omega),
        List.getD_eq_getElem a 0 (by omega)]
    have hbn : b.get? b.length = none := by
      rw [List.get?_eq_getElem?]
      exact List.getElem?_eq_none (Nat.le_refl _)
    rw [h0, hbn]
  rw [hpa]
  rfl

/-- C2 (amended): cross-correlation returns an empty output whenever either
input is empty; when `len(a) ≤ len(b)` it succeeds with an output of length
`la + lb - 1` where `y[n]` is the sum of `a[k] * b[k + lag]`,
`lag = n - (lb - 1)`, over exactly the in-range index pairs, with no read of
`b` outside its bounds; the concrete example is
`corr-cross([1,2,3],[0,1,0]) = [0,3,2,1,0]`; and whenever both inputs are
non-empty with `len(a) > len(b)`, the clamped inner loop reads `b` out of
range — undefined behaviour, modelled as `none` (at output index
`2*len(b) - 1` the loop reads `b[len(b)]`). -/
theorem corr_cross_correct (a b : List ℚ) :
    (a.length = 0 ∨ b.length = 0 → seq_corr_cross a b = some []) ∧
    (a.length ≤ b.length → seq_corr_cross a b = some (corrCrossSpec a b)) ∧
    (a.length ≠ 0 → b.length ≠ 0 →
      (corrCrossSpec a b).length = a.length + b.length - 1) ∧
    (a.length ≠ 0 → b.length ≠ 0 → b.length < a.length → seq_corr_cross a b = none) ∧
    seq_corr_cross [(1 : ℚ), 2, 3] [0, 1, 0] = some [0, 3, 2, 1, 0] ∧
    seq_corr_cross [(1 : ℚ), 2, 3] [5] = none := by
  refine ⟨?_, ?_, ?_, ?_, by
    norm_num [seq_corr_cross, optMap, optAccum, prodAt, List.range_succ, List.range',
      Int.toNat, Int.toNat_ofNat], rfl⟩
  · intro hz
    rw [seq_corr_cross, if_pos hz]
  · intro hle
    by_cases hz : a.length = 0 ∨ b.length = 0
    · rw [seq_corr_cross, corrCrossSpec, if_pos hz, if_pos hz]
    · push_neg at hz
      obtain ⟨ha, hb⟩ := hz
      rw [seq_corr_cross, corrCrossSpec, if_neg (by tauto), if_neg (by tauto)]
      refine optMap_some _ _ _ ?_
      intro n hn
      rw [List.mem_range] at hn
      exact corr_cross_inner a b ha hb hle n hn
  · intro ha hb
    rw [corrCrossSpec, if_neg (by tauto), List.length_map, List.length_range]
  · intro ha hb hlt
    rw [seq_corr_cross, if_neg (by tauto)]
    refine optMap_none _ _ (2 * b.length - 1) (List.mem_range.mpr (by omega)) ?_
    exact corr_cross_oob_term a b ha hb hlt

/-- C2 (amended) witness at concrete inputs, discharging each conjunct's
hypotheses. -/
theorem corr_cross_correct_witness :
    seq_corr_cross [(1 : ℚ), 2] [] = some [] ∧
    seq_corr_cross [(2 : ℚ)] [4, 6] = some (corrCrossSpec [(2 : ℚ)] [4, 6]) ∧
    (corrCrossSpec [(2 : ℚ)] [4, 6]).length = [(2 : ℚ)].length + [(4 : ℚ), 6].length - 1 ∧
    seq_corr_cross [(1 : ℚ), 2] [5] = none :=
  ⟨(corr_cross_correct [(1 : ℚ), 2] []).1 (by decide),
   (corr_cross_correct [(2 : ℚ)] [4, 6]).2.1 (by decide),
   (corr_cross_correct [(2 : ℚ)] [4, 6]).2.2.1 (by decide) (by decide),
   (corr_cross_correct [(1 : ℚ), 2] [5]).2.2.2.1 (by decide) (by decide) (by decide)⟩

/-- C2 counterexample to the claim as stated: the claimed example value
`[0,1,2,3,0]` is wrong — the code (and the claim's own summation formula)
give `[0,3,2,1,0]` — and on `a = [1,2,3]`, `b = [5]` the inner loop reads
`b` out of range (modelled `none`), where the claim demands the in-range
sum `[5,0,0]` with no out-of-range read. -/
theorem corr_cross_claim_counterexample :
    seq_corr_cross [(1 : ℚ), 2, 3] [0, 1, 0] = some [0, 3, 2, 1, 0] ∧
    ¬ ([(0 : ℚ), 3, 2, 1, 0] = [0, 1, 2, 3, 0]) ∧
    corrCrossSpec [(1 : ℚ), 2, 3] [0, 1, 0] = [0, 3, 2, 1, 0] ∧
    seq_corr_cross [(1 : ℚ), 2, 3] [5] = none ∧
    corrCrossSpec [(1 : ℚ), 2, 3] [5] = [5, 0, 0] := by
  refine ⟨by
    norm_num [seq_corr_cross, optMap, optAccum, prodAt, List.range_succ, List.range',
      Int.toNat, Int.toNat_ofNat],
    by norm_num,
    by norm_num [corrCrossSpec, List.range_succ, List.filter, Int.toNat, Int.toNat_ofNat], rfl,
    by norm_num [corrCrossSpec, List.range_succ, List.filter, Int.toNat, Int.toNat_ofNat]⟩

/-- C10: `seq_window_get` is total — it returns `0.0` for a null window, a
null buffer, a zero capacity, or an index at or past `count`, and otherwise
returns the sample at physical index `(start + i) % capacity`, which lies
inside the allocated buffer under the push-maintained invariant
(`buf` non-null of length `capacity`, `count ≤ capacity`,
`start < capacity`), an invariant `seq_window_push` preserves. -/
theorem window_get_total (w : seq_window_t) (data : List ℚ) (i : Nat)
    (hbuf : w.buf = some data) (hlen : data.length = w.capacity)
    (hcount : w.count ≤ w.capacity) (hstart : w.start < w.capacity) :
    (∀ j, seq_window_get none j = 0) ∧
    (∀ w2 : seq_window_t, ∀ j, w2.buf = none → seq_window_get (some w2) j = 0) ∧
    (∀ w2 : seq_window_t, ∀ j, w2.capacity = 0 → seq_window_get (some w2) j = 0) ∧
    (w.count ≤ i → seq_window_get (some w) i = 0) ∧
    (i < w.count → (w.start + i) % w.capacity < data.length ∧
      seq_window_get (some w) i = data.getD ((w.start + i) % w.capacity) 0) ∧
    (∀ x : ℚ, ∃ data2 : List ℚ, (seq_window_push w x).buf = some data2 ∧
      data2.length = (seq_window_push w x).capacity ∧
      (seq_window_push w x).count ≤ (seq_window_push w x).capacity ∧
      (seq_window_push w x).start < (seq_window_push w x).capacity) := by
  have hcap : w.capacity ≠ 0 := by omega
  refine ⟨fun j => rfl, ?_, ?_, ?_, ?_, ?_⟩
  · intro w2 j h2
    simp [seq_window_get, h2]
  · intro w2 j h2
    unfold seq_window_get
    cases h : w2.buf <;> simp [h, h2]
  · intro hi
    simp [seq_window_get, hbuf, hcap, hi]
  · intro hi
    constructor
    · rw [hlen]
      exact Nat.mod_lt _ (by omega)
    · simp [seq_window_get, hbuf, hcap, Nat.not_le.mpr hi]
  · intro x
    unfold seq_window_push
    rw [hbuf]
    by_cases hc : w.count < w.capacity
    · refine ⟨data.set ((w.start + w.count) % w.capacity) x, ?_⟩
      simp [hcap, hc, List.length_set, hlen, hstart]
      omega
    · refine ⟨data.set w.start x, ?_⟩
      simp [hcap, hc, List.length_set, hlen]
      refine ⟨by omega, Nat.mod_lt _ (by omega)⟩

/-- C10 witness at a concrete window. -/
theorem window_get_total_witness :
    ((⟨some [3, 4], 2, 1, 1⟩ : seq_window_t).buf = some [3, 4] ∧
      ([(3 : ℚ), 4]).length = 2 ∧ 1 ≤ 2 ∧ 1 < 2) ∧
    ((0 : Nat) < 1 → (1 + 0) % 2 < ([(3 : ℚ), 4]).length ∧
      seq_window_get (some ⟨some [3, 4], 2, 1, 1⟩) 0 =
        [(3 : ℚ), 4].getD ((1 + 0) % 2) 0) :=
  ⟨⟨rfl, by decide, by decide, by decide⟩,
    (window_get_total ⟨some [3, 4], 2, 1, 1⟩ [3, 4] 0 rfl (by decide) (by decide)
      (by decide)).2.2.2.2.1⟩

theorem corr_window_core_eq (wa wb : seq_window_t) (da db : List ℚ)
    (hba : wa.buf = some da) (hbb : wb.buf = some db)
    (hca : wa.capacity ≠ 0) (hcb : wb.capacity ≠ 0)
    (hza : wa.count ≠ 0) (hzb : wb.count ≠ 0) :
    seq_corr_window_norm_core wa wb =
      (if (pearsonStats wa wb (min wa.count wb.count)).2.1 ≤ 0 ∨
          (pearsonStats wa wb (min wa.count wb.count)).2.2 ≤ 0 then none
        else some (pearsonStats wa wb (min wa.count wb.count))) := by
  have hL : min wa.count wb.count ≠ 0 := by omega
  have hoa : (if min wa.count wb.count < wa.count then
      wa.count - min wa.count wb.count else 0) = wa.count - min wa.count wb.count := by
    split_ifs <;> omega
  have hob : (if min wa.count wb.count < wb.count then
      wb.count - min wa.count wb.count else 0) = wb.count - min wa.count wb.count := by
    split_ifs <;> omega
  simp only [seq_corr_window_norm_core, hba, hbb]
  rw [if_neg (by tauto), if_neg (by tauto), if_neg hL, hoa, hob]
  simp only [pearsonStats, windowRecent, List.zip_map', List.map_map, Function.comp]
  rfl

theorem pearson_sx2_nonneg (wa wb : seq_window_t) (L : Nat) :
    0 ≤ (pearsonStats wa wb L).2.1 := by
  refine List.sum_nonneg ?_
  intro x hx
  rw [List.mem_map] at hx
  obtain ⟨v, _, rfl⟩ := hx
  exact mul_self_nonneg _

theorem pearson_sy2_nonneg (wa wb : seq_window_t) (L : Nat) :
    0 ≤ (pearsonStats wa wb L).2.2 := by
  refine List.sum_nonneg ?_
  intro x hx
  rw [List.mem_map] at hx
  obtain ⟨v, _, rfl⟩ := hx
  exact mul_self_nonneg _

/-- Exact-arithmetic behaviour of the windowed normalized correlation: for
initialized windows (non-null buffers, positive capacities), the exact
model fails exactly when either window is empty or either side's computed
sum of squared deviations over the `L = min` aligned most-recent samples
is zero, and otherwise returns `Σdx·dy / sqrt(Σdx² · Σdy²)`. The C program
computes these sums in IEEE doubles, where mean rounding can make the
computed `sx2` nonzero on a window of identical samples (so the program's
failure condition is about the rounded sums, not the exact sample
variance); this theorem records only the ideal-arithmetic content. -/
theorem corr_window_norm_exact_model (wa wb : seq_window_t) (da db : List ℚ)
    (hba : wa.buf = some da) (hbb : wb.buf = some db)
    (hca : wa.capacity ≠ 0) (hcb : wb.capacity ≠ 0) :
    (seq_corr_window_norm wa wb = none ↔
      wa.count = 0 ∨ wb.count = 0 ∨
      (pearsonStats wa wb (min wa.count wb.count)).2.1 = 0 ∨
      (pearsonStats wa wb (min wa.count wb.count)).2.2 = 0) ∧
    (∀ num sx2 sy2, pearsonStats wa wb (min wa.count wb.count) = (num, sx2, sy2) →
      wa.count ≠ 0 → wb.count ≠ 0 → sx2 ≠ 0 → sy2 ≠ 0 →
      seq_corr_window_norm wa wb =
        some ((num : ℝ) / Real.sqrt ((sx2 : ℝ) * (sy2 : ℝ)))) := by
  by_cases hza : wa.count = 0
  · have hnone : seq_corr_window_norm wa wb = none := by
      simp [seq_corr_window_norm, seq_corr_window_norm_core, hba, hbb, hza]
    refine ⟨by simp [hnone, hza], ?_⟩
    intro num sx2 sy2 _ hza' _ _ _
    exact absurd hza hza'
  · by_cases hzb : wb.count = 0
    · have hnone : seq_corr_window_norm wa wb = none := by
        simp [seq_corr_window_norm, seq_corr_window_norm_core, hba, hbb, hzb]
      refine ⟨by simp [hnone, hzb], ?_⟩
      intro num sx2 sy2 _ _ hzb' _ _
      exact absurd hzb hzb'
    · have hcore := corr_window_core_eq wa wb da db hba hbb hca hcb hza hzb
      have hnn1 := pearson_sx2_nonneg wa wb (min wa.count wb.count)
      have hnn2 := pearson_sy2_nonneg wa wb (min wa.count wb.count)
      by_cases hv : (pearsonStats wa wb (min wa.count wb.count)).2.1 = 0 ∨
          (pearsonStats wa wb (min wa.count wb.count)).2.2 = 0
      · have hnone : seq_corr_window_norm wa wb = none := by
          rw [seq_corr_window_norm, hcore, if_pos (by
            rcases hv with h | h
            · exact Or.inl (le_of_eq h)
            · exact Or.inr (le_of_eq h))]
        refine ⟨by simp [hnone, hza, hzb, hv], ?_⟩
        intro num sx2 sy2 hps _ _ hx2 hy2
        rcases hv with h | h
        · rw [hps] at h
          exact absurd h hx2
        · rw [hps] at h
          exact absurd h hy2
      · push_neg at hv
        obtain ⟨hx0, hy0⟩ := hv
        have hxpos : 0 < (pearsonStats wa wb (min wa.count wb.count)).2.1 :=
          lt_of_le_of_ne hnn1 (Ne.symm hx0)
        have hypos : 0 < (pearsonStats wa wb (min wa.count wb.count)).2.2 :=
          lt_of_le_of_ne hnn2 (Ne.symm hy0)
        have hsqrtpos : 0 < Real.sqrt
            (((pearsonStats wa wb (min wa.count wb.count)).2.1 : ℝ) *
              ((pearsonStats wa wb (min wa.count wb.count)).2.2 : ℝ)) := by
          refine Real.sqrt_pos.mpr ?_
          have h1 : (0 : ℝ) < ((pearsonStats wa wb (min wa.count wb.count)).2.1 : ℝ) := by
            exact_mod_cast hxpos
          have h2 : (0 : ℝ) < ((pearsonStats wa wb (min wa.count wb.count)).2.2 : ℝ) := by
            exact_mod_cast hypos
          exact mul_pos h1 h2
        have hsome : seq_corr_window_norm wa wb =
            some (((pearsonStats wa wb (min wa.count wb.count)).1 : ℝ) /
              Real.sqrt (((pearsonStats wa wb (min wa.count wb.count)).2.1 : ℝ) *
                ((pearsonStats wa wb (min wa.count wb.count)).2.2 : ℝ))) := by
          rw [seq_corr_window_norm, hcore, if_neg (by
            push_neg
            exact ⟨hxpos, hypos⟩)]
          simp only [ne_eq]
          rw [if_neg (ne_of_gt hsqrtpos)]
        refine ⟨?_, ?_⟩
        · rw [hsome]
          simp [hza, hzb, hx0, hy0]
        · intro num sx2 sy2 hps _ _ _ _
          rw [hsome, hps]

/-- Concrete instance of the exact-model correlation: `xa = [1,2]`,
`yb = [1,3]` give `(Σdx·dy, Σdx², Σdy²) = (1, 1/2, 2)` and the
computation succeeds. -/
theorem corr_window_norm_exact_model_witness :
    pearsonStats ⟨some [1, 2], 2, 0, 2⟩ ⟨some [1, 3], 2, 0, 2⟩
        (min (2 : Nat) 2) = (1, 1 / 2, 2) ∧
    seq_corr_window_norm ⟨some [1, 2], 2, 0, 2⟩ ⟨some [1, 3], 2, 0, 2⟩ =
      some (((1 : ℚ) : ℝ) / Real.sqrt (((1 / 2 : ℚ) : ℝ) * ((2 : ℚ) : ℝ))) := by
  have hps : pearsonStats (⟨some [1, 2], 2, 0, 2⟩ : seq_window_t)
      (⟨some [1, 3], 2, 0, 2⟩ : seq_window_t) (min (2 : Nat) 2) = (1, 1 / 2, 2) := by
    norm_num [pearsonStats, windowRecent, seq_window_get, List.range_succ]
  exact ⟨hps,
    (corr_window_norm_exact_model ⟨some [1, 2], 2, 0, 2⟩ ⟨some [1, 3], 2, 0, 2⟩
        [1, 2] [1, 3] rfl rfl (by decide) (by decide)).2
      1 (1 / 2) 2 hps (by decide) (by decide) (by norm_num) (by norm_num)⟩
